import Mathlib

/-!
# Verification of the `git-distance` metric engine

Shallow embedding of the string-distance metrics and the CLI core of the
`git-distance` repository (`src/index.mjs`).  JavaScript strings are
modelled as `List Char`; JavaScript numbers are modelled as `Nat`, `Int`
or `ℚ` according to the value range each metric actually produces.
-/

namespace GitDistance

/-- The JavaScript method `String.prototype.padEnd`: pad `s` on the right with the
character `c` until its length is `n` (no-op when `s` is already long
enough). -/
def padEnd (s : List Char) (n : Nat) (c : Char) : List Char :=
  s ++ List.replicate (n - s.length) c

/-- Function `hammingDistance` (src/index.mjs, lines 13-29): pad the shorter string
with spaces to the common maximal length, then count the positions at
which the padded strings differ (the source loops `i` from `0` to
`maxLen - 1` and increments a counter whenever `padded1[i] !== padded2[i]`). -/
def hammingDistance (a b : List Char) : Nat :=
  let maxLen := max a.length b.length
  let padded1 := padEnd a maxLen ' '
  let padded2 := padEnd b maxLen ' '
  (List.range maxLen).countP fun i => padded1.getD i ' ' != padded2.getD i ' '

/-- Function `calculateAdditions` (src/index.mjs, lines 39-41): `str2.length - str1.length`,
a signed difference. -/
def calculateAdditions (a b : List Char) : Int :=
  (b.length : Int) - (a.length : Int)

/-- Modelled from the spec: the Levenshtein metric of the program is the
`distance` function of the external `fastest-levenshtein` npm package,
whose source is not part of this repository.  The spec describes it as the
classic unit-cost insert/delete/substitute dynamic-programming edit
distance; this recursion computes exactly that recurrence. -/
def levenshtein : List Char → List Char → Nat
  | [], t => t.length
  | s, [] => s.length
  | x :: xs, y :: ys =>
    let cost := if x = y then 0 else 1
    min (min (levenshtein xs (y :: ys) + 1) (levenshtein (x :: xs) ys + 1))
      (levenshtein xs ys + cost)
termination_by s t => s.length + t.length
decreasing_by all_goals simp +arith [List.length_cons]

/-- The Damerau-Levenshtein dynamic-programming table of
`damerauLevenshtein` (src/index.mjs, lines 51-86), as a cell function:
`dlCell s t fuel i j` is `matrix[i][j]` of the source.  Row `0` holds `j`,
column `0` holds `i`; an inner cell is the three-way minimum of deletion,
insertion and substitution, possibly improved by the adjacent-transposition
step `matrix[i-2][j-2] + cost` when `i > 1 && j > 1 &&
str1[i-1] === str2[j-2] && str1[i-2] === str2[j-1]`.  The `fuel` argument
only drives the recursion; any `fuel ≥ i + j` yields the table value. -/
def dlCell (s t : List Char) : Nat → Nat → Nat → Nat
  | _, 0, j => j
  | _, i + 1, 0 => i + 1
  | 0, _ + 1, _ + 1 => 0
  | fuel + 1, i + 1, j + 1 =>
    let cost := if s.getD i ' ' = t.getD j ' ' then 0 else 1
    let best := min (min (dlCell s t fuel i (j + 1) + 1) (dlCell s t fuel (i + 1) j + 1))
      (dlCell s t fuel i j + cost)
    if 1 ≤ i ∧ 1 ≤ j ∧ s.getD i ' ' = t.getD (j - 1) ' ' ∧ s.getD (i - 1) ' ' = t.getD j ' '
    then min best (dlCell s t fuel (i - 1) (j - 1) + cost)
    else best

/-- Function `damerauLevenshtein` (src/index.mjs, lines 51-86): early returns for an
empty operand, otherwise the bottom-right cell of the dynamic-programming
table. -/
def damerauLevenshtein (s t : List Char) : Nat :=
  if s.length = 0 then t.length
  else if t.length = 0 then s.length
  else dlCell s t (s.length + t.length) s.length t.length

/-- Reference recursion for the Damerau-Levenshtein recurrence, consuming
the *last* characters of the compared prefixes first (so it is applied to
reversed strings): unit-cost Levenshtein extended with the adjacent
transposition option exactly as the table recurrence states it. -/
def dlR : List Char → List Char → Nat
  | [], t => t.length
  | s, [] => s.length
  | x :: xs, y :: ys =>
    let cost := if x = y then 0 else 1
    let best := min (min (dlR xs (y :: ys) + 1) (dlR (x :: xs) ys + 1)) (dlR xs ys + cost)
    if 1 ≤ xs.length ∧ 1 ≤ ys.length ∧ x = ys.getD 0 ' ' ∧ xs.getD 0 ' ' = y
    then min best (dlR xs.tail ys.tail + cost)
    else best
termination_by s t => s.length + t.length
decreasing_by
  all_goals simp +arith [List.length_cons, List.length_tail]
  all_goals omega

/-- The longest-common-subsequence dynamic-programming table of
`longestCommonSubsequence` (src/index.mjs, lines 162-187), as a cell
function: `lcsCell s t fuel i j` is `dp[i][j]` of the source.  The whole
table, row `0` and column `0` included, starts at `0`; an inner cell is
`dp[i-1][j-1] + 1` on a character match and `max (dp[i-1][j]) (dp[i][j-1])`
otherwise.  Any `fuel ≥ i + j` yields the table value. -/
def lcsCell (s t : List Char) : Nat → Nat → Nat → Nat
  | _, 0, _ => 0
  | _, _ + 1, 0 => 0
  | 0, _ + 1, _ + 1 => 0
  | fuel + 1, i + 1, j + 1 =>
    if s.getD i ' ' = t.getD j ' ' then lcsCell s t fuel i j + 1
    else max (lcsCell s t fuel i (j + 1)) (lcsCell s t fuel (i + 1) j)

/-- Function `longestCommonSubsequence` (src/index.mjs, lines 162-187): returns
`max(len1, len2)` directly when either operand is empty, otherwise
`maxLength - dp[len1][len2]`. -/
def longestCommonSubsequence (s t : List Char) : Nat :=
  if s.length = 0 ∨ t.length = 0 then max s.length t.length
  else max s.length t.length - lcsCell s t (s.length + t.length) s.length t.length

/-- Reference recursion for the longest-common-subsequence length,
consuming the *last* characters of the compared prefixes first (so it is
applied to reversed strings). -/
def lcsR : List Char → List Char → Nat
  | [], _ => 0
  | _, [] => 0
  | x :: xs, y :: ys =>
    if x = y then lcsR xs ys + 1
    else max (lcsR xs (y :: ys)) (lcsR (x :: xs) ys)
termination_by s t => s.length + t.length
decreasing_by all_goals simp +arith [List.length_cons]

/-- Predicate stating that `n` is the length of a longest common subsequence of `s` and `t`:
some common sublist reaches it and no common sublist exceeds it. -/
def IsLcsLen (s t : List Char) (n : Nat) : Prop :=
  (∃ l : List Char, l.Sublist s ∧ l.Sublist t ∧ l.length = n) ∧
    ∀ l : List Char, l.Sublist s → l.Sublist t → l.length ≤ n

/-- The JavaScript expression `str.split('\n')` (used by `lineCountDifference`,
src/index.mjs, lines 197-201): the list of newline-delimited segments,
empty segments included, so the result always has one more entry than the
string has `'\n'` characters. -/
def splitNl : List Char → List (List Char)
  | [] => [[]]
  | c :: rest =>
    if c = '\n' then [] :: splitNl rest
    else
      match splitNl rest with
      | seg :: segs => (c :: seg) :: segs
      | [] => [[c]]

/-- Function `lineCountDifference` (src/index.mjs, lines 197-201):
`str2.split('\n').length - str1.split('\n').length`, a signed difference of
segment counts. -/
def lineCountDifference (a b : List Char) : Int :=
  ((splitNl b).length : Int) - ((splitNl a).length : Int)

/-- The character class of the JavaScript regular-expression `\s`, used by
`wordCountDifference` through `split(/\s+/)`. -/
def isJsWhitespace (c : Char) : Bool :=
  c.val ∈ ([0x20, 0x09, 0x0a, 0x0b, 0x0c, 0x0d, 0xa0, 0x1680,
    0x2000, 0x2001, 0x2002, 0x2003, 0x2004, 0x2005, 0x2006, 0x2007,
    0x2008, 0x2009, 0x200a, 0x2028, 0x2029, 0x202f, 0x205f, 0x3000,
    0xfeff] : List UInt32)

/-- Word counting of `wordCountDifference` (src/index.mjs, lines 211-215):
`str.split(/\s+/).filter(Boolean).length` equals the number of maximal
non-whitespace runs of the string; `countRuns s inWord` counts the runs of
`s`, where `inWord` records whether the previous character was
non-whitespace (so the run containing it is already counted). -/
def countRuns : List Char → Bool → Nat
  | [], _ => 0
  | c :: rest, inWord =>
    if isJsWhitespace c then countRuns rest false
    else (if inWord then 0 else 1) + countRuns rest true

/-- The word count of one string: its number of maximal non-whitespace runs. -/
def wordCount (s : List Char) : Nat := countRuns s false

/-- Function `wordCountDifference` (src/index.mjs, lines 211-215): signed difference
of word counts. -/
def wordCountDifference (a b : List Char) : Int :=
  (wordCount b : Int) - (wordCount a : Int)

/-- The matching window of one outer iteration of the `jaroWinkler` scan
(src/index.mjs, lines 108-119): the column indices `j` with
`max(0, i - w) ≤ j < min(i + w + 1, n)`, in increasing order.  The window
radius `w` is an integer and can be negative (strings of length at most
one), in which case the window may be empty. -/
def jwWindow (w : Int) (i n : Nat) : List Nat :=
  let s := (max 0 ((i : Int) - w)).toNat
  let e := (min ((i : Int) + w + 1) (n : Int)).toNat
  List.range' s (e - s)

/-- One step of the `jaroWinkler` matching scan (src/index.mjs, lines
108-119) for the outer index `i`: find the first window position `j` that
is not yet matched and holds the character `a[i]`; on success set both
flags and count one match. -/
def jwScanStep (a b : List Char) (w : Int) (st : List Bool × List Bool × Nat) (i : Nat) :
    List Bool × List Bool × Nat :=
  match (jwWindow w i b.length).find? fun j =>
      !(st.2.1.getD j false) && (b.getD j ' ' == a.getD i ' ') with
  | some j => (st.1.set i true, st.2.1.set j true, st.2.2 + 1)
  | none => st

/-- The full `jaroWinkler` matching scan: fold the step over
`i = 0, …, len1 - 1` starting from all-false match flags, returning
`(str1Matches, str2Matches, matches)`. -/
def jwScan (a b : List Char) (w : Int) : List Bool × List Bool × Nat :=
  (List.range a.length).foldl (jwScanStep a b w)
    (List.replicate a.length false, List.replicate b.length false, 0)

/-- The window radius of `jaroWinkler` (src/index.mjs, line 100):
`Math.floor(max(len1, len2) / 2) - 1`, as an integer (negative when both
strings have length at most one). -/
def jwRadius (a b : List Char) : Int :=
  ((max a.length b.length / 2 : Nat) : Int) - 1

/-- The match count the `jaroWinkler` scan finds for `a` against `b`. -/
def jwMatches (a b : List Char) : Nat :=
  (jwScan a b (jwRadius a b)).2.2

/-- The `while (!str2Matches[k]) k++` walk of the transposition loop
(src/index.mjs, line 127): the first index `≥ k` whose flag is set.  The
fuel argument bounds the walk; under the scan invariant (a set flag always
remains ahead) fuel `m.length` suffices. -/
def nextTrueF : Nat → List Bool → Nat → Nat
  | 0, _, k => k
  | fuel + 1, m, k => if m.getD k false then k else nextTrueF fuel m (k + 1)

/-- One iteration of the transposition loop of `jaroWinkler`
(src/index.mjs, lines 124-130), at outer index `i` with state
`(k, transpositions)`: on a set `str1Matches` flag, advance `k` to the next
set `str2Matches` flag, compare the characters there, and step past it. -/
def jwTransStep (a b : List Char) (m1 m2 : List Bool) (st : Nat × Nat) (i : Nat) : Nat × Nat :=
  if m1.getD i false then
    let k := nextTrueF b.length m2 st.1
    (k + 1, if a.getD i ' ' ≠ b.getD k ' ' then st.2 + 1 else st.2)
  else st

/-- The transposition loop of `jaroWinkler` (src/index.mjs, lines 124-130):
fold the step over `i = 0, …, len1 - 1` starting from `k = 0` and zero
transpositions. -/
def jwTranspositions (a b : List Char) (m1 m2 : List Bool) : Nat :=
  ((List.range a.length).foldl (jwTransStep a b m1 m2) (0, 0)).2

/-- The prefix-bonus loop of `jaroWinkler` (src/index.mjs, lines 140-145):
the length of the common prefix, capped at `cap` characters. -/
def commonPrefixLenUpTo : Nat → List Char → List Char → Nat
  | 0, _, _ => 0
  | _ + 1, [], _ => 0
  | _ + 1, _, [] => 0
  | cap + 1, x :: xs, y :: ys =>
    if x = y then 1 + commonPrefixLenUpTo cap xs ys else 0

/-- Function `jaroWinkler` (src/index.mjs, lines 96-151): `1 - winkler_similarity`,
computed over exact rationals.  Identical strings give `0`; otherwise an
empty operand gives `1`; otherwise a scan with zero matches gives `1`;
otherwise the Jaro similarity is averaged from the match and transposition
counts and the Winkler prefix bonus (`0.1` per common-prefix character, at
most `4`) is applied. -/
def jaroWinkler (a b : List Char) : ℚ :=
  if a = b then 0
  else if a.length = 0 ∨ b.length = 0 then 1
  else
    let w := jwRadius a b
    let scanned := jwScan a b w
    let matchCount := scanned.2.2
    if matchCount = 0 then 1
    else
      let t := jwTranspositions a b scanned.1 scanned.2.1
      let jaro : ℚ :=
        ((matchCount : ℚ) / a.length + (matchCount : ℚ) / b.length +
          ((matchCount : ℚ) - (t : ℚ) / 2) / (matchCount : ℚ)) / 3
      let prefixLen := commonPrefixLenUpTo (min 4 (min a.length b.length)) a b
      let winkler := jaro + (1 / 10) * (prefixLen : ℚ) * (1 - jaro)
      1 - winkler

/-! ## The CLI core: metric selection and aggregation (src/index.mjs, `run`) -/

/-- One compared artifact: an opaque identifier (the file path) and the two
contents fetched from the compared branches. -/
structure ContentPair where
  id : String
  contentA : List Char
  contentB : List Char
deriving DecidableEq

/-- The ordered per-pair results and their running total produced by the
aggregation loop of `run` (src/index.mjs, lines 442-459). -/
structure MetricReport (β : Type) where
  rows : List (String × β)
  total : β

/-- The aggregation loop of `run` (src/index.mjs, lines 442-459): one
result row per content pair, in input order, and `total` accumulated by
`total += dist` starting from `0`. -/
def aggregate {β : Type} [AddCommMonoid β] (f : List Char → List Char → β)
    (pairs : List ContentPair) : MetricReport β where
  rows := pairs.map fun p => (p.id, f p.contentA p.contentB)
  total := pairs.foldl (fun acc p => acc + f p.contentA p.contentB) 0

/-- The errors `run` exits with (exit code 1). -/
inductive RunError where
  | ambiguousMetric
  | invalidArgs
deriving DecidableEq

/-- The mutually exclusive distance-measure flags (src/index.mjs, lines
361-369), in source order. -/
def distanceFlags : List String :=
  ["--hamming", "--additions", "--damerau-levenshtein", "--jaro-winkler",
    "--lcs", "--lines", "--words"]

/-- The distance-measure flags present in the argument list
(src/index.mjs, line 372): `distanceFlags.filter(flag => args.includes(flag))`. -/
def selectedDistanceFlags (args : List String) : List String :=
  distanceFlags.filter fun flag => args.contains flag

/-- Metric selection (src/index.mjs, lines 372-382): more than one
distance-measure flag is an immediate error; otherwise the selected flag,
or the default `"levenshtein"` when none was given. -/
def selectDistanceMeasure (args : List String) : Except RunError String :=
  let selected := selectedDistanceFlags args
  if selected.length > 1 then .error .ambiguousMetric
  else .ok (if selected.length > 0 then selected.headD "levenshtein" else "levenshtein")

/-- The metric function `getDistance` dispatches to (src/index.mjs, lines
420-440), with every metric's value injected into `ℚ` (JavaScript has a
single number type). -/
def metricOf (measure : String) : List Char → List Char → ℚ :=
  if measure = "--hamming" then fun a b => (hammingDistance a b : ℚ)
  else if measure = "--additions" then fun a b => (calculateAdditions a b : ℚ)
  else if measure = "--damerau-levenshtein" then fun a b => (damerauLevenshtein a b : ℚ)
  else if measure = "--jaro-winkler" then jaroWinkler
  else if measure = "--lcs" then fun a b => (longestCommonSubsequence a b : ℚ)
  else if measure = "--lines" then fun a b => (lineCountDifference a b : ℚ)
  else if measure = "--words" then fun a b => (wordCountDifference a b : ℚ)
  else fun a b => (levenshtein a b : ℚ)

/-- What a `run` invocation comes to (src/index.mjs, lines 326-460), with
the git interaction abstracted away: the changed-file pairs and their
contents are the input.  `help` is the usage screen (exit 0), `failed` an
error exit (exit 1), `noChanges` the early exit for an empty change set
(exit 0). -/
inductive RunOutcome where
  | help
  | failed (e : RunError)
  | noChanges
  | report (r : MetricReport ℚ)

/-- The argument list with all recognized flags removed (src/index.mjs,
lines 385-391): what remains must be one or two branch names. -/
def branchArgs (args : List String) : List String :=
  args.filter fun arg =>
    arg ≠ "--verbose" && arg ≠ "-V" && arg ≠ "--list" && arg ≠ "-L" &&
      !(distanceFlags.contains arg)

/-- The `run` pipeline (src/index.mjs, lines 326-460): help screen first;
then metric selection (failing fast on an ambiguous request); then branch
argument validation; then the changed-file set (already resolved to content
pairs by the git collaborator), with an early exit when it is empty;
finally the aggregation loop with the selected metric. -/
def runCore (args : List String) (pairs : List ContentPair) : RunOutcome :=
  if args = [] ∨ args.contains "--help" ∨ args.contains "-h" then .help
  else
    match selectDistanceMeasure args with
    | .error e => .failed e
    | .ok measure =>
      if (branchArgs args).length = 1 ∨ (branchArgs args).length = 2 then
        if pairs = [] then .noChanges
        else .report (aggregate (metricOf measure) pairs)
      else .failed .invalidArgs

/-! ## Helper lemmas -/

theorem splitNl_ne_nil (s : List Char) : splitNl s ≠ [] := by
  induction s with
  | nil => simp [splitNl]
  | cons c rest ih =>
    rw [splitNl]
    by_cases h : c = '\n'
    · simp [h]
    · simp only [if_neg h]
      cases hs : splitNl rest with
      | nil => simp
      | cons seg segs => simp

theorem splitNl_length (s : List Char) :
    (splitNl s).length = s.count '\n' + 1 := by
  induction s with
  | nil => simp [splitNl]
  | cons c rest ih =>
    rw [splitNl]
    by_cases h : c = '\n'
    · simp [h, ih, List.count_cons]
    · simp only [if_neg h]
      cases hs : splitNl rest with
      | nil => exact absurd hs (splitNl_ne_nil rest)
      | cons seg segs =>
        have : segs.length + 1 = rest.count '\n' + 1 := by rw [← ih, hs, List.length_cons]
        simp [List.count_cons, h, this]

theorem countP_range_eq_card_filter (n : Nat) (q : Nat → Prop) [DecidablePred q] :
    ((Finset.range n).filter q).card = (List.range n).countP fun i => decide (q i) := by
  induction n with
  | zero => simp
  | succ n ih =>
    rw [Finset.range_succ, List.range_succ, Finset.filter_insert, List.countP_append]
    by_cases h : q n
    · rw [if_pos h, Finset.card_insert_of_not_mem (by simp)]
      simp [ih, h]
    · rw [if_neg h]
      simp [ih, h]

/-! ## Claim theorems (signed metrics, Hamming, line counts) -/

/-- C8: each of the three signed difference metrics is antisymmetric:
swapping the operands negates the value. -/
theorem signed_metrics_antisymmetric : ∀ a b : List Char,
    calculateAdditions a b = -calculateAdditions b a ∧
    lineCountDifference a b = -lineCountDifference b a ∧
    wordCountDifference a b = -wordCountDifference b a := by
  intro a b
  refine ⟨?_, ?_, ?_⟩ <;> simp [calculateAdditions, lineCountDifference, wordCountDifference]

/-- C9: the line-count difference metric is the signed difference of the
newline-delimited segment counts of its operands; the segment count is one
more than the number of `'\n'` characters, so a trailing newline
contributes one extra segment; and the spec's concrete vector holds. -/
theorem lineCountDifference_segments :
    (∀ a b : List Char, lineCountDifference a b =
      ((splitNl b).length : Int) - ((splitNl a).length : Int)) ∧
    (∀ a : List Char, (splitNl a).length = a.count '\n' + 1) ∧
    (∀ a : List Char, (splitNl (a ++ ['\n'])).length = (splitNl a).length + 1) ∧
    lineCountDifference "line1\nline2".toList "line1\nline2\nline3".toList = 1 := by
  refine ⟨fun a b => rfl, splitNl_length, fun a => ?_, by decide⟩
  rw [splitNl_length, splitNl_length]
  simp [List.count_append]

/-- C10: appending only trailing spaces to a string yields length-padded
Hamming distance `0`, because padding the original operand produces exactly
the extended operand. -/
theorem hammingDistance_trailing_spaces : ∀ (a : List Char) (k : Nat),
    hammingDistance a (a ++ List.replicate k ' ') = 0 := by
  intro a k
  have hmax : max a.length (a ++ List.replicate k ' ').length = a.length + k := by
    simp
  have hp1 : padEnd a (a.length + k) ' ' = a ++ List.replicate k ' ' := by
    simp [padEnd]
  have hp2 : padEnd (a ++ List.replicate k ' ') (a.length + k) ' ' =
      a ++ List.replicate k ' ' := by
    simp [padEnd]
  rw [hammingDistance]
  simp only [hmax, hp1, hp2]
  apply List.countP_eq_zero.2
  intro i _
  simp

/-- C5: the length-padded Hamming metric counts exactly the positions,
below the common padded length, at which the two space-padded operands
differ; and the two concrete vectors of the spec hold. -/
theorem hammingDistance_padded_positions :
    (∀ a b : List Char,
      hammingDistance a b =
        ((Finset.range (max a.length b.length)).filter fun i =>
          (padEnd a (max a.length b.length) ' ').getD i ' ' ≠
            (padEnd b (max a.length b.length) ' ').getD i ' ').card) ∧
    hammingDistance "abc".toList "abd".toList = 1 ∧
    hammingDistance "ab".toList "abcd".toList = 2 := by
  refine ⟨fun a b => ?_, by decide, by decide⟩
  rw [hammingDistance, countP_range_eq_card_filter]
  apply List.countP_congr
  intro i _
  simp [bne_iff_ne]

theorem foldl_add_eq_sum {β : Type} [AddCommMonoid β] (g : ContentPair → β)
    (pairs : List ContentPair) (acc : β) :
    pairs.foldl (fun acc p => acc + g p) acc = acc + (pairs.map g).sum := by
  induction pairs generalizing acc with
  | nil => simp
  | cons p rest ih => simp [ih, add_assoc]

/-- C2: the aggregation loop produces one result row per content pair, in
the input order (row `i` is exactly pair `i`'s identifier with the metric
applied to its two contents), the total is the sum of the row values, and
the empty input yields the empty report with total `0`. -/
theorem aggregate_rows_and_total : ∀ {β : Type} [AddCommMonoid β]
    (f : List Char → List Char → β) (pairs : List ContentPair),
    ((aggregate f pairs).rows.length = pairs.length ∧
      ∀ i : Nat, (aggregate f pairs).rows[i]? =
        pairs[i]?.map fun p => (p.id, f p.contentA p.contentB)) ∧
    (aggregate f pairs).total = ((aggregate f pairs).rows.map Prod.snd).sum ∧
    aggregate f [] = ⟨[], 0⟩ := by
  intro β _ f pairs
  refine ⟨⟨by simp [aggregate], fun i => by simp [aggregate]⟩, ?_, ?_⟩
  · show pairs.foldl _ 0 = _
    rw [foldl_add_eq_sum (fun p => f p.contentA p.contentB) pairs 0, zero_add]
    simp only [aggregate, List.map_map]
    rfl
  · show aggregate f [] = _
    rw [aggregate]
    simp [aggregate]

/-- C3: inside a `run` invocation that is not a help request, the presence
of two or more distance-measure flags makes the whole run fail with the
ambiguous-metric error, whatever the content pairs are (so before any pair
is evaluated and with no default fallback); and with zero distance-measure
flags the selection yields the default `"levenshtein"`. -/
theorem metric_selection_exclusive : ∀ (args : List String) (pairs : List ContentPair),
    (¬(args = [] ∨ args.contains "--help" = true ∨ args.contains "-h" = true) →
      2 ≤ (selectedDistanceFlags args).length →
      runCore args pairs = .failed .ambiguousMetric) ∧
    ((selectedDistanceFlags args).length = 0 →
      selectDistanceMeasure args = .ok "levenshtein") := by
  intro args pairs
  constructor
  · intro hhelp h2
    have hsel : selectDistanceMeasure args = .error .ambiguousMetric := by
      rw [selectDistanceMeasure]
      simp only [if_pos (by omega : (selectedDistanceFlags args).length > 1)]
    rw [runCore, if_neg hhelp, hsel]
  · intro h0
    rw [selectDistanceMeasure]
    simp [h0]

/-- Witness for `metric_selection_exclusive` at concrete inputs: two
distance flags fail the run, and a flagless argument list selects the
default metric. -/
theorem metric_selection_exclusive_witness :
    runCore ["--lcs", "--hamming", "main"] [⟨"f", [], []⟩] = .failed .ambiguousMetric ∧
    selectDistanceMeasure ["main"] = .ok "levenshtein" :=
  ⟨(metric_selection_exclusive ["--lcs", "--hamming", "main"] [⟨"f", [], []⟩]).1
      (by decide) (by decide),
    (metric_selection_exclusive ["main"] []).2 (by decide)⟩

/-- C4 (counterexample): for the identical one-character strings `"x"` and
`"x"` the windowed matching scan finds zero matches (the window radius is
`-1`, so every window is empty), yet the Jaro-Winkler distance is `0`, not
`1`: "zero matches found implies distance 1" does not hold unconditionally. -/
theorem jaroWinkler_zero_matches_counterexample :
    jwMatches ['x'] ['x'] = 0 ∧ jaroWinkler ['x'] ['x'] ≠ 1 := by
  constructor
  · decide
  · intro h
    have : (0 : ℚ) = 1 := by
      rw [← h]
      decide
    norm_num at this

/-- C4 (amended): the Jaro-Winkler metric returns `0` on identical strings
(the empty pair included); on distinct strings it returns `1` when either
operand is empty; and on distinct strings it returns `1` when the windowed
matching scan finds zero matches. -/
theorem jaroWinkler_special_cases : ∀ a b : List Char,
    (a = b → jaroWinkler a b = 0) ∧
    (a ≠ b → a = [] ∨ b = [] → jaroWinkler a b = 1) ∧
    (a ≠ b → jwMatches a b = 0 → jaroWinkler a b = 1) := by
  intro a b
  refine ⟨fun h => by rw [jaroWinkler, if_pos h], fun h hemp => ?_, fun h hm => ?_⟩
  · rw [jaroWinkler, if_neg h, if_pos]
    rcases hemp with h0 | h0 <;> simp [h0]
  · rw [jaroWinkler, if_neg h]
    by_cases hemp : a.length = 0 ∨ b.length = 0
    · rw [if_pos hemp]
    · rw [if_neg hemp]
      simp only [jwMatches] at hm
      simp [hm]

/-- Witness for `jaroWinkler_special_cases` at concrete inputs: the
identical empty pair gives `0`; `"x"` against the empty string gives `1`;
the distinct pair `"x"`, `"y"` has an empty-window scan with zero matches
and gives `1`. -/
theorem jaroWinkler_special_cases_witness :
    jaroWinkler [] [] = 0 ∧ jaroWinkler ['x'] [] = 1 ∧ jaroWinkler ['x'] ['y'] = 1 :=
  ⟨(jaroWinkler_special_cases [] []).1 rfl,
    (jaroWinkler_special_cases ['x'] []).2.1 (by decide) (Or.inr rfl),
    (jaroWinkler_special_cases ['x'] ['y']).2.2 (by decide) (by decide)⟩

theorem reverse_take_succ {s : List Char} {i : Nat} (h : i < s.length) (d : Char) :
    (s.take (i + 1)).reverse = s.getD i d :: (s.take i).reverse := by
  rw [List.take_succ, List.getElem?_eq_getElem h]
  simp [List.getD_eq_getElem?_getD, List.getElem?_eq_getElem h]

theorem lcsR_nil_right (s : List Char) : lcsR s [] = 0 := by
  cases s <;> simp [lcsR]

theorem lcsCell_eq_lcsR (s t : List Char) :
    ∀ fuel i j, i ≤ s.length → j ≤ t.length → i + j ≤ fuel →
      lcsCell s t fuel i j = lcsR (s.take i).reverse (t.take j).reverse := by
  intro fuel
  induction fuel with
  | zero =>
    intro i j _ _ hf
    have hi : i = 0 := by omega
    have hj : j = 0 := by omega
    subst hi hj
    simp [lcsCell, lcsR]
  | succ fuel ih =>
    intro i j hi hj hf
    match i, j with
    | 0, j => simp [lcsCell, lcsR]
    | i + 1, 0 =>
      rw [reverse_take_succ (by omega) ' ']
      simp [lcsCell, lcsR]
    | i + 1, j + 1 =>
      have hi' : i < s.length := by omega
      have hj' : j < t.length := by omega
      rw [reverse_take_succ hi' ' ', reverse_take_succ hj' ' ']
      rw [lcsCell]
      by_cases hc : s.getD i ' ' = t.getD j ' '
      · rw [if_pos hc, ih i j (by omega) (by omega) (by omega)]
        rw [hc, lcsR]
        simp
      · rw [if_neg hc, ih i (j + 1) (by omega) (by omega) (by omega),
          ih (i + 1) j (by omega) (by omega) (by omega),
          reverse_take_succ hi' ' ', reverse_take_succ hj' ' ']
        rw [lcsR, if_neg (by simpa using hc)]

theorem length_le_lcsR (s t : List Char) :
    ∀ l : List Char, l.Sublist s → l.Sublist t → l.length ≤ lcsR s t := by
  induction s, t using lcsR.induct with
  | case1 t =>
    intro l hs _
    rw [List.sublist_nil.mp hs]
    simp
  | case2 s _ =>
    intro l _ ht
    rw [List.sublist_nil.mp ht]
    simp
  | case3 xs y ys ih =>
    intro l hs ht
    have hgoal : lcsR (y :: xs) (y :: ys) = lcsR xs ys + 1 := by simp [lcsR]
    rw [hgoal]
    cases hs with
    | cons _ hs' =>
      cases ht with
      | cons _ ht' => exact le_trans (ih l hs' ht') (Nat.le_succ _)
      | cons₂ _ ht' =>
        rename_i l₁
        have hl₁s : l₁.Sublist xs := (List.sublist_cons_self y l₁).trans hs'
        have := ih l₁ hl₁s ht'
        simpa using Nat.succ_le_succ this
    | cons₂ _ hs' =>
      cases ht with
      | cons _ ht' =>
        rename_i l₁
        have hl₁t : l₁.Sublist ys := (List.sublist_cons_self y l₁).trans ht'
        have := ih l₁ hs' hl₁t
        simpa using Nat.succ_le_succ this
      | cons₂ _ ht' =>
        have := ih _ hs' ht'
        simpa using Nat.succ_le_succ this
  | case4 x xs y ys hxy ih1 ih2 =>
    intro l hs ht
    have hgoal : lcsR (x :: xs) (y :: ys) =
        max (lcsR xs (y :: ys)) (lcsR (x :: xs) ys) := by
      rw [lcsR, if_neg hxy]
    rw [hgoal]
    cases hs with
    | cons _ hs' => exact le_trans (ih1 l hs' ht) (le_max_left _ _)
    | cons₂ _ hs' =>
      cases ht with
      | cons _ ht' =>
        refine le_trans (ih2 _ ?_ ht') (le_max_right _ _)
        exact hs'.cons₂ x
      | cons₂ _ ht' => exact absurd rfl hxy

theorem exists_common_of_lcsR (s t : List Char) :
    ∃ l : List Char, l.Sublist s ∧ l.Sublist t ∧ l.length = lcsR s t := by
  induction s, t using lcsR.induct with
  | case1 t => exact ⟨[], List.nil_sublist _, List.nil_sublist _, by simp [lcsR]⟩
  | case2 s _ => exact ⟨[], List.nil_sublist _, List.nil_sublist _, by simp [lcsR_nil_right]⟩
  | case3 xs y ys ih =>
    obtain ⟨l, hs, ht, hlen⟩ := ih
    refine ⟨y :: l, hs.cons₂ y, ht.cons₂ y, ?_⟩
    rw [lcsR]
    simp [hlen]
  | case4 x xs y ys hxy ih1 ih2 =>
    rcases le_total (lcsR xs (y :: ys)) (lcsR (x :: xs) ys) with hle | hle
    · obtain ⟨l, hs, ht, hlen⟩ := ih2
      refine ⟨l, hs, ht.cons y, ?_⟩
      rw [lcsR]
      simp only [if_neg hxy]
      omega
    · obtain ⟨l, hs, ht, hlen⟩ := ih1
      refine ⟨l, hs.cons x, ht, ?_⟩
      rw [lcsR]
      simp only [if_neg hxy]
      omega

theorem lcsR_isLcsLen (s t : List Char) : IsLcsLen s t (lcsR s t) :=
  ⟨exists_common_of_lcsR s t, length_le_lcsR s t⟩

theorem isLcsLen_of_reverse {s t : List Char} {n : Nat}
    (h : IsLcsLen s.reverse t.reverse n) : IsLcsLen s t n := by
  obtain ⟨⟨l, hs, ht, hlen⟩, hbound⟩ := h
  constructor
  · refine ⟨l.reverse, ?_, ?_, by simp [hlen]⟩
    · have : l.reverse.reverse.Sublist s.reverse := by simpa using hs
      simpa using List.reverse_sublist.mp this
    · have : l.reverse.reverse.Sublist t.reverse := by simpa using ht
      simpa using List.reverse_sublist.mp this
  · intro l hls hlt
    have hrs : l.reverse.Sublist s.reverse := List.reverse_sublist.mpr hls
    have hrt : l.reverse.Sublist t.reverse := List.reverse_sublist.mpr hlt
    simpa using hbound l.reverse hrs hrt

theorem longestCommonSubsequence_eq (s t : List Char) :
    longestCommonSubsequence s t = max s.length t.length - lcsR s.reverse t.reverse := by
  rw [longestCommonSubsequence]
  by_cases h : s.length = 0 ∨ t.length = 0
  · rw [if_pos h]
    rcases h with h | h
    · rw [List.length_eq_zero.mp h]
      simp [lcsR]
    · rw [List.length_eq_zero.mp h]
      simp [lcsR_nil_right]
  · rw [if_neg h]
    rw [lcsCell_eq_lcsR s t (s.length + t.length) s.length t.length le_rfl le_rfl le_rfl]
    rw [List.take_length, List.take_length]

/-- Definition following claim C1's words, for comparison with the source:
the same longest-common-subsequence recurrence, but over a table whose 0th
row and column are initialized to the index values `0..len`, as the claim
asserts for all matrix-based metrics. -/
def lcsIdxCell (s t : List Char) : Nat → Nat → Nat → Nat
  | _, 0, j => j
  | _, i + 1, 0 => i + 1
  | 0, _ + 1, _ + 1 => 0
  | fuel + 1, i + 1, j + 1 =>
    if s.getD i ' ' = t.getD j ' ' then lcsIdxCell s t fuel i j + 1
    else max (lcsIdxCell s t fuel i (j + 1)) (lcsIdxCell s t fuel (i + 1) j)

/-- The bottom-right cell of the index-initialized table of `lcsIdxCell`:
what claim C1 says the LCS length is computed by. -/
def lcsIdxLen (s t : List Char) : Nat :=
  lcsIdxCell s t (s.length + t.length) s.length t.length

/-- C1 (counterexample): on the pair `"A"`, `"B"` the source's LCS distance
is `1`, but `max(len) - n` with `n` computed by the dynamic program whose
0th row and column are initialized to index values is `0`: the source
initializes the whole LCS table, borders included, to `0`, not to `0..len`. -/
theorem lcs_table_init_counterexample :
    longestCommonSubsequence ['A'] ['B'] ≠
      max (['A'] : List Char).length (['B'] : List Char).length - lcsIdxLen ['A'] ['B'] := by
  decide

/-- C1 (amended): the LCS-distance metric returns
`max(len(a), len(b)) - n` where `n` is the length of a longest common
subsequence of the operands (the dynamic program over character equality
with zero-initialized borders computes exactly that); the spec's concrete
vector holds. -/
theorem lcs_distance_correct :
    (∀ s t : List Char, ∃ n : Nat, IsLcsLen s t n ∧
      longestCommonSubsequence s t = max s.length t.length - n) ∧
    longestCommonSubsequence "ABCDGH".toList "AEDFHR".toList = 3 := by
  constructor
  · intro s t
    exact ⟨lcsR s.reverse t.reverse, isLcsLen_of_reverse (by simpa using lcsR_isLcsLen s.reverse t.reverse),
      longestCommonSubsequence_eq s t⟩
  · decide

theorem dlR_nil_right (s : List Char) : dlR s [] = s.length := by
  cases s <;> simp [dlR]

theorem dlCell_eq_dlR (s t : List Char) :
    ∀ fuel i j, i ≤ s.length → j ≤ t.length → i + j ≤ fuel →
      dlCell s t fuel i j = dlR (s.take i).reverse (t.take j).reverse := by
  intro fuel
  induction fuel with
  | zero =>
    intro i j _ _ hf
    have hi : i = 0 := by omega
    have hj : j = 0 := by omega
    subst hi hj
    simp [dlCell, dlR]
  | succ fuel ih =>
    intro i j hi hj hf
    match i, j with
    | 0, j =>
      simp only [dlCell, List.take_zero, List.reverse_nil, dlR, List.length_reverse,
        List.length_take]
      omega
    | i + 1, 0 =>
      rw [reverse_take_succ (by omega) ' ']
      simp only [dlCell, List.take_zero, List.reverse_nil]
      rw [dlR_nil_right]
      simp only [List.length_cons, List.length_reverse, List.length_take]
      omega
    | i + 1, j + 1 =>
      have hi' : i < s.length := by omega
      have hj' : j < t.length := by omega
      have e1 : dlCell s t fuel i (j + 1) =
          dlR (s.take i).reverse (t.getD j ' ' :: (t.take j).reverse) := by
        rw [ih i (j + 1) (by omega) (by omega) (by omega), reverse_take_succ hj' ' ']
      have e2 : dlCell s t fuel (i + 1) j =
          dlR (s.getD i ' ' :: (s.take i).reverse) (t.take j).reverse := by
        rw [ih (i + 1) j (by omega) (by omega) (by omega), reverse_take_succ hi' ' ']
      have e3 : dlCell s t fuel i j = dlR (s.take i).reverse (t.take j).reverse :=
        ih i j (by omega) (by omega) (by omega)
      rw [reverse_take_succ hi' ' ', reverse_take_succ hj' ' ', dlCell, dlR, e1, e2, e3]
      rcases Nat.eq_zero_or_pos i with hi0 | hipos
      · subst hi0
        rw [if_neg (show ¬(1 ≤ 0 ∧ 1 ≤ j ∧ s.getD 0 ' ' = t.getD (j - 1) ' ' ∧
            s.getD (0 - 1) ' ' = t.getD j ' ') by omega)]
        rw [if_neg (show ¬(1 ≤ (List.take 0 s).reverse.length ∧
            1 ≤ (List.take j t).reverse.length ∧
            s.getD 0 ' ' = (List.take j t).reverse.getD 0 ' ' ∧
            (List.take 0 s).reverse.getD 0 ' ' = t.getD j ' ') by simp)]
      · rcases Nat.eq_zero_or_pos j with hj0 | hjpos
        · subst hj0
          rw [if_neg (show ¬(1 ≤ i ∧ 1 ≤ 0 ∧ s.getD i ' ' = t.getD (0 - 1) ' ' ∧
              s.getD (i - 1) ' ' = t.getD 0 ' ') by omega)]
          rw [if_neg (show ¬(1 ≤ (List.take i s).reverse.length ∧
              1 ≤ (List.take 0 t).reverse.length ∧
              s.getD i ' ' = (List.take 0 t).reverse.getD 0 ' ' ∧
              (List.take i s).reverse.getD 0 ' ' = t.getD 0 ' ') by simp)]
        · have hc1 : (s.take i).reverse = s.getD (i - 1) ' ' :: (s.take (i - 1)).reverse := by
            have hi1 : i - 1 + 1 = i := by omega
            rw [← hi1, reverse_take_succ (by omega) ' ']
            simp
          have hc2 : (t.take j).reverse = t.getD (j - 1) ' ' :: (t.take (j - 1)).reverse := by
            have hj1 : j - 1 + 1 = j := by omega
            rw [← hj1, reverse_take_succ (by omega) ' ']
            simp
          have e4 : dlCell s t fuel (i - 1) (j - 1) =
              dlR (s.take (i - 1)).reverse (t.take (j - 1)).reverse :=
            ih (i - 1) (j - 1) (by omega) (by omega) (by omega)
          rw [e4, hc1, hc2]
          simp only [List.tail_cons]
          refine if_congr ?_ rfl rfl
          constructor
          · rintro ⟨_, _, h3, h4⟩
            exact ⟨by simp, by simp, by simpa using h3, by simpa using h4⟩
          · rintro ⟨_, _, h3, h4⟩
            exact ⟨hipos, hjpos, by simpa using h3, by simpa using h4⟩

/-- The Damerau-Levenshtein recurrence applied to whole strings: `dlR` on
the reversed operands, so that the head of each list is the last character
of the corresponding prefix, exactly as the table recurrence inspects them. -/
def dlSpec (s t : List Char) : Nat := dlR s.reverse t.reverse

theorem damerauLevenshtein_eq (s t : List Char) :
    damerauLevenshtein s t = dlSpec s t := by
  rw [damerauLevenshtein, dlSpec]
  by_cases hs : s.length = 0
  · rw [if_pos hs, List.length_eq_zero.mp hs]
    simp [dlR]
  · rw [if_neg hs]
    by_cases ht : t.length = 0
    · rw [if_pos ht, List.length_eq_zero.mp ht]
      simp [dlR_nil_right]
    · rw [if_neg ht,
        dlCell_eq_dlR s t (s.length + t.length) s.length t.length le_rfl le_rfl le_rfl,
        List.take_length, List.take_length]

/-- C6: the Damerau-Levenshtein metric equals the recursive form of the
claimed dynamic program (unit-cost Levenshtein plus the adjacent
transposition option taken from two steps back diagonally when
`a[i-1]==b[j-2]` and `a[i-2]==b[j-1]`), and the spec's concrete vector
`damerauLevenshtein("ab","ba") == 1` holds. -/
theorem damerauLevenshtein_transposition_dp :
    (∀ s t : List Char, damerauLevenshtein s t = dlSpec s t) ∧
    damerauLevenshtein "ab".toList "ba".toList = 1 :=
  ⟨damerauLevenshtein_eq, by decide⟩

theorem costEq_symm (x y : Char) : (if x = y then (0 : Nat) else 1) = (if y = x then 0 else 1) := by
  by_cases h : x = y
  · rw [if_pos h, if_pos h.symm]
  · rw [if_neg h, if_neg (fun h2 => h h2.symm)]

theorem levenshtein_nil_right (s : List Char) : levenshtein s [] = s.length := by
  cases s <;> simp [levenshtein]

theorem levenshtein_symm : ∀ s t : List Char, levenshtein s t = levenshtein t s := by
  intro s t
  induction s, t using levenshtein.induct with
  | case1 t => rw [levenshtein_nil_right]; simp [levenshtein]
  | case2 s _ => rw [levenshtein_nil_right]; simp [levenshtein]
  | case3 x xs y ys ih1 ih2 ih3 =>
    simp only [levenshtein]
    rw [ih1, ih2, ih3, costEq_symm,
      min_comm (levenshtein (y :: ys) xs + 1) (levenshtein ys (x :: xs) + 1)]

theorem lcsR_symm : ∀ s t : List Char, lcsR s t = lcsR t s := by
  intro s t
  induction s, t using lcsR.induct with
  | case1 t => rw [lcsR_nil_right]; simp [lcsR]
  | case2 s _ => rw [lcsR_nil_right]; simp [lcsR]
  | case3 xs y ys ih => simp only [lcsR, if_pos rfl, if_true, ih]
  | case4 x xs y ys hxy ih1 ih2 =>
    simp only [lcsR]
    rw [if_neg hxy, if_neg (fun h => hxy h.symm), ih1, ih2,
      max_comm (lcsR ys (x :: xs)) (lcsR (y :: ys) xs)]

theorem dlR_symm : ∀ s t : List Char, dlR s t = dlR t s := by
  intro s t
  induction s, t using dlR.induct with
  | case1 t => rw [dlR_nil_right]; simp [dlR]
  | case2 s _ => rw [dlR_nil_right]; simp [dlR]
  | case3 x xs y ys hcond ih1 ih2 ih3 ih4 =>
    obtain ⟨h1, h2, h3, h4⟩ := hcond
    have hL : dlR (x :: xs) (y :: ys) =
        min (min (min (dlR xs (y :: ys) + 1) (dlR (x :: xs) ys + 1))
          (dlR xs ys + if x = y then 0 else 1))
          (dlR xs.tail ys.tail + if x = y then 0 else 1) := by
      simp only [dlR]
      rw [if_pos (show 1 ≤ xs.length ∧ 1 ≤ ys.length ∧ x = ys.getD 0 ' ' ∧ xs.getD 0 ' ' = y
        from ⟨h1, h2, h3, h4⟩)]
    have hR : dlR (y :: ys) (x :: xs) =
        min (min (min (dlR ys (x :: xs) + 1) (dlR (y :: ys) xs + 1))
          (dlR ys xs + if y = x then 0 else 1))
          (dlR ys.tail xs.tail + if y = x then 0 else 1) := by
      simp only [dlR]
      rw [if_pos (show 1 ≤ ys.length ∧ 1 ≤ xs.length ∧ y = xs.getD 0 ' ' ∧ ys.getD 0 ' ' = x
        from ⟨h2, h1, h4.symm, h3.symm⟩)]
    rw [hL, hR, ih1, ih2, ih3, ih4, costEq_symm x y,
      min_comm (dlR (y :: ys) xs + 1) (dlR ys (x :: xs) + 1)]
  | case4 x xs y ys hcond ih1 ih2 ih3 =>
    have hL : dlR (x :: xs) (y :: ys) =
        min (min (dlR xs (y :: ys) + 1) (dlR (x :: xs) ys + 1))
          (dlR xs ys + if x = y then 0 else 1) := by
      simp only [dlR]
      rw [if_neg hcond]
    have hR : dlR (y :: ys) (x :: xs) =
        min (min (dlR ys (x :: xs) + 1) (dlR (y :: ys) xs + 1))
          (dlR ys xs + if y = x then 0 else 1) := by
      simp only [dlR]
      rw [if_neg (show ¬(1 ≤ ys.length ∧ 1 ≤ xs.length ∧ y = xs.getD 0 ' ' ∧
            ys.getD 0 ' ' = x) from
          fun hk => hcond ⟨hk.2.1, hk.1, hk.2.2.2.symm, hk.2.2.1.symm⟩)]
    rw [hL, hR, ih1, ih2, ih3, costEq_symm x y,
      min_comm (dlR (y :: ys) xs + 1) (dlR ys (x :: xs) + 1)]

theorem bne_symm_char (x y : Char) : (x != y) = (y != x) := by
  rcases eq_or_ne x y with h | h
  · rw [h]
  · rw [bne_iff_ne.mpr h, bne_iff_ne.mpr h.symm]

theorem hammingDistance_symm (a b : List Char) :
    hammingDistance a b = hammingDistance b a := by
  rw [hammingDistance, hammingDistance, max_comm b.length a.length]
  apply List.countP_congr
  intro i _
  exact iff_of_eq (congrArg (fun c => c = true) (bne_symm_char _ _))

/-! ## Greedy bipartite matching on finite edge sets

The `jaroWinkler` matching scan is a row-major greedy matching: rows are
processed in increasing order and each row takes the smallest free column
among its neighbours.  This section develops the matching abstractly on a
finite edge set and proves that the produced pair set is invariant under
swapping the two sides, which is the heart of the symmetry of the scan. -/

/-- Remove from an edge set every edge sharing a row or a column with `e`. -/
def delE (e : ℕ × ℕ) (E : Finset (ℕ × ℕ)) : Finset (ℕ × ℕ) :=
  E.filter fun f => f.1 ≠ e.1 ∧ f.2 ≠ e.2

/-- An edge set with the two sides swapped. -/
def mirrorF (E : Finset (ℕ × ℕ)) : Finset (ℕ × ℕ) :=
  E.image Prod.swap

/-- Predicate characterizing the row-major lexicographically least edge. -/
def IsRowMin (E : Finset (ℕ × ℕ)) (e : ℕ × ℕ) : Prop :=
  e ∈ E ∧ ∀ f ∈ E, e.1 < f.1 ∨ (e.1 = f.1 ∧ e.2 ≤ f.2)

/-- The row-major lexicographically least edge of a nonempty edge set
(junk value `(0, 0)` on the empty set). -/
def rowMinF (E : Finset (ℕ × ℕ)) : ℕ × ℕ :=
  if h : E.Nonempty then
    have h1 : (E.image Prod.fst).Nonempty := h.image _
    have h2 : ((E.filter fun f => f.1 = (E.image Prod.fst).min' h1).image Prod.snd).Nonempty := by
      obtain ⟨f, hf, hfst⟩ := Finset.mem_image.mp ((E.image Prod.fst).min'_mem h1)
      exact ⟨f.2, Finset.mem_image.mpr ⟨f, Finset.mem_filter.mpr ⟨hf, hfst⟩, rfl⟩⟩
    ((E.image Prod.fst).min' h1,
      ((E.filter fun f => f.1 = (E.image Prod.fst).min' h1).image Prod.snd).min' h2)
  else (0, 0)

theorem mem_delE {e f : ℕ × ℕ} {E : Finset (ℕ × ℕ)} :
    f ∈ delE e E ↔ f ∈ E ∧ f.1 ≠ e.1 ∧ f.2 ≠ e.2 := by
  simp [delE]

theorem delE_comm (e e' : ℕ × ℕ) (E : Finset (ℕ × ℕ)) :
    delE e (delE e' E) = delE e' (delE e E) := by
  ext f
  simp only [mem_delE]
  tauto

theorem card_delE_lt {e : ℕ × ℕ} {E : Finset (ℕ × ℕ)} (he : e ∈ E) :
    (delE e E).card < E.card := by
  apply Finset.card_lt_card
  constructor
  · exact Finset.filter_subset _ _
  · intro hsub
    have : e ∈ delE e E := hsub he
    rw [mem_delE] at this
    exact this.2.1 rfl

theorem rowMinF_isRowMin {E : Finset (ℕ × ℕ)} (h : E.Nonempty) :
    IsRowMin E (rowMinF E) := by
  have h1 : (E.image Prod.fst).Nonempty := h.image _
  set i := (E.image Prod.fst).min' h1 with hidef
  have h2 : ((E.filter fun f => f.1 = i).image Prod.snd).Nonempty := by
    obtain ⟨f, hf, hfst⟩ := Finset.mem_image.mp ((E.image Prod.fst).min'_mem h1)
    exact ⟨f.2, Finset.mem_image.mpr ⟨f, Finset.mem_filter.mpr ⟨hf, hfst⟩, rfl⟩⟩
  set j := ((E.filter fun f => f.1 = i).image Prod.snd).min' h2 with hjdef
  have hrw : rowMinF E = (i, j) := by
    rw [rowMinF, dif_pos h]
  rw [hrw]
  constructor
  · have hjmem := ((E.filter fun f => f.1 = i).image Prod.snd).min'_mem h2
    rw [← hjdef] at hjmem
    obtain ⟨f, hf, hsnd⟩ := Finset.mem_image.mp hjmem
    rw [Finset.mem_filter] at hf
    have hfeq : (i, j) = f := by
      apply Prod.ext
      · exact hf.2.symm
      · exact hsnd.symm
    rw [hfeq]
    exact hf.1
  · intro f hf
    have hile : i ≤ f.1 := by
      rw [hidef]
      exact Finset.min'_le _ _ (Finset.mem_image.mpr ⟨f, hf, rfl⟩)
    rcases Nat.lt_or_ge i f.1 with hlt | hge
    · exact Or.inl hlt
    · have heq : i = f.1 := by omega
      refine Or.inr ⟨heq, ?_⟩
      rw [hjdef]
      exact Finset.min'_le _ _
        (Finset.mem_image.mpr ⟨f, Finset.mem_filter.mpr ⟨hf, heq.symm⟩, rfl⟩)

theorem isRowMin_unique {E : Finset (ℕ × ℕ)} {e e' : ℕ × ℕ}
    (h : IsRowMin E e) (h' : IsRowMin E e') : e = e' := by
  obtain ⟨hmem, hmin⟩ := h
  obtain ⟨hmem', hmin'⟩ := h'
  rcases hmin e' hmem' with h1 | ⟨h1, h2⟩
  · rcases hmin' e hmem with h3 | ⟨h3, h4⟩
    · omega
    · omega
  · rcases hmin' e hmem with h3 | ⟨h3, h4⟩
    · omega
    · exact Prod.ext h1 (by omega)

theorem rowMinF_eq {E : Finset (ℕ × ℕ)} {e : ℕ × ℕ} (h : E.Nonempty)
    (he : IsRowMin E e) : rowMinF E = e :=
  isRowMin_unique (rowMinF_isRowMin h) he

theorem isRowMin_subset {E E' : Finset (ℕ × ℕ)} {e : ℕ × ℕ} (hsub : E' ⊆ E)
    (hmem : e ∈ E') (h : IsRowMin E e) : IsRowMin E' e :=
  ⟨hmem, fun f hf => h.2 f (hsub hf)⟩

theorem rowMinF_mem {E : Finset (ℕ × ℕ)} (h : E.Nonempty) : rowMinF E ∈ E :=
  (rowMinF_isRowMin h).1

theorem mem_mirrorF {f : ℕ × ℕ} {E : Finset (ℕ × ℕ)} :
    f ∈ mirrorF E ↔ f.swap ∈ E := by
  constructor
  · intro hf
    obtain ⟨g, hg, hswap⟩ := Finset.mem_image.mp hf
    rw [← hswap, Prod.swap_swap]
    exact hg
  · intro hf
    exact Finset.mem_image.mpr ⟨f.swap, hf, Prod.swap_swap f⟩

theorem mirrorF_mirrorF (E : Finset (ℕ × ℕ)) : mirrorF (mirrorF E) = E := by
  ext f
  rw [mem_mirrorF, mem_mirrorF, Prod.swap_swap]

theorem mirrorF_insert (e : ℕ × ℕ) (E : Finset (ℕ × ℕ)) :
    mirrorF (insert e E) = insert e.swap (mirrorF E) :=
  Finset.image_insert _ _ _

theorem mirrorF_delE (e : ℕ × ℕ) (E : Finset (ℕ × ℕ)) :
    mirrorF (delE e E) = delE e.swap (mirrorF E) := by
  ext f
  rw [mem_mirrorF, mem_delE, mem_delE, mem_mirrorF]
  simp [Prod.fst_swap, Prod.snd_swap]
  tauto

theorem nonempty_mirrorF {E : Finset (ℕ × ℕ)} :
    (mirrorF E).Nonempty ↔ E.Nonempty := by
  constructor
  · rintro ⟨f, hf⟩
    exact ⟨f.swap, mem_mirrorF.mp hf⟩
  · rintro ⟨f, hf⟩
    exact ⟨f.swap, mem_mirrorF.mpr (by rwa [Prod.swap_swap])⟩

/-- Row-major greedy matching by repeated extraction: take the row-major
least edge, remove its row and column, and recurse. -/
def procRow (E : Finset (ℕ × ℕ)) : Finset (ℕ × ℕ) :=
  if h : E.Nonempty then
    insert (rowMinF E) (procRow (delE (rowMinF E) E))
  else ∅
termination_by E.card
decreasing_by exact card_delE_lt (rowMinF_mem h)

theorem procRow_of_nonempty {E : Finset (ℕ × ℕ)} (h : E.Nonempty) :
    procRow E = insert (rowMinF E) (procRow (delE (rowMinF E) E)) := by
  rw [procRow, dif_pos h]

theorem procRow_of_empty {E : Finset (ℕ × ℕ)} (h : ¬E.Nonempty) :
    procRow E = ∅ := by
  rw [procRow, dif_neg h]

theorem procRow_subset (E : Finset (ℕ × ℕ)) : procRow E ⊆ E := by
  by_cases h : E.Nonempty
  · rw [procRow_of_nonempty h]
    intro f hf
    rcases Finset.mem_insert.mp hf with rfl | hf'
    · exact rowMinF_mem h
    · exact Finset.filter_subset _ _ (procRow_subset (delE (rowMinF E) E) hf')
  · rw [procRow_of_empty h]
    intro f hf
    simp at hf
termination_by E.card
decreasing_by exact card_delE_lt (rowMinF_mem h)

theorem rowMin_coords_ne {E : Finset (ℕ × ℕ)} {er ec' : ℕ × ℕ}
    (hrmin : IsRowMin E er) (hcmin : IsRowMin (mirrorF E) ec')
    (heq : er ≠ ec'.swap) : er.1 ≠ ec'.swap.1 ∧ er.2 ≠ ec'.swap.2 := by
  have hecE : ec'.swap ∈ E := mem_mirrorF.mp hcmin.1
  have herM : er.swap ∈ mirrorF E := mem_mirrorF.mpr (by rw [Prod.swap_swap]; exact hrmin.1)
  have hr := hrmin.2 ec'.swap hecE
  have hc := hcmin.2 er.swap herM
  have hne : ¬(er.1 = ec'.swap.1 ∧ er.2 = ec'.swap.2) := fun hx => heq (Prod.ext hx.1 hx.2)
  simp only [Prod.fst_swap, Prod.snd_swap] at hr hc hne ⊢
  omega

theorem procRow_mirrorF_aux : ∀ (n : ℕ) (E : Finset (ℕ × ℕ)), E.card ≤ n →
    procRow (mirrorF E) = mirrorF (procRow E) := by
  intro n
  induction n with
  | zero =>
    intro E hcard
    have : E = ∅ := Finset.card_eq_zero.mp (by omega)
    subst this
    rw [procRow_of_empty (by simp [mirrorF]), procRow_of_empty (by simp)]
    simp [mirrorF]
  | succ n ih =>
    intro E hcard
    by_cases h : E.Nonempty
    · have hm : (mirrorF E).Nonempty := nonempty_mirrorF.mpr h
      set er := rowMinF E with her
      set ec' := rowMinF (mirrorF E) with hec
      have hermem : er ∈ E := rowMinF_mem h
      have hecmem : ec' ∈ mirrorF E := rowMinF_mem hm
      have hecE : ec'.swap ∈ E := mem_mirrorF.mp hecmem
      by_cases heq : er = ec'.swap
      · rw [procRow_of_nonempty hm, procRow_of_nonempty h, mirrorF_insert, ← her, ← hec]
        have h1 : ec' = er.swap := by rw [heq, Prod.swap_swap]
        rw [h1, ← mirrorF_delE]
        congr 1
        exact ih (delE er E) (by have := card_delE_lt hermem; omega)
      · have hrmin : IsRowMin E er := rowMinF_isRowMin h
        have hcmin : IsRowMin (mirrorF E) ec' := rowMinF_isRowMin hm
        obtain ⟨hne1, hne2⟩ := rowMin_coords_ne hrmin hcmin heq
        have hermemc : er ∈ delE ec'.swap E := mem_delE.mpr ⟨hermem, hne1, hne2⟩
        have hDc : (delE ec'.swap E).Nonempty := ⟨er, hermemc⟩
        have f1 : rowMinF (delE ec'.swap E) = er :=
          rowMinF_eq hDc (isRowMin_subset (Finset.filter_subset _ _) hermemc hrmin)
        have hmDr : mirrorF (delE er E) = delE er.swap (mirrorF E) := mirrorF_delE er E
        have hecmemr : ec' ∈ mirrorF (delE er E) := by
          rw [hmDr, mem_delE]
          refine ⟨hecmem, ?_, ?_⟩
          · simp only [Prod.fst_swap]
            intro hx
            apply hne2
            rw [← hx]
            simp
          · simp only [Prod.snd_swap]
            intro hx
            apply hne1
            rw [← hx]
            simp
        have hDr : (mirrorF (delE er E)).Nonempty := ⟨ec', hecmemr⟩
        have f2 : rowMinF (mirrorF (delE er E)) = ec' := by
          apply rowMinF_eq hDr
          apply isRowMin_subset ?_ hecmemr hcmin
          rw [hmDr]
          exact Finset.filter_subset _ _
        have hcard1 : (delE ec'.swap E).card ≤ n := by
          have := card_delE_lt hecE
          omega
        have hcard2 : (delE er E).card ≤ n := by
          have := card_delE_lt hermem
          omega
        have hcard3 : (delE er (delE ec'.swap E)).card ≤ n := by
          have h1 : (delE er (delE ec'.swap E)).card ≤ (delE ec'.swap E).card :=
            Finset.card_le_card (Finset.filter_subset _ _)
          omega
        have hdelmm : delE ec' (mirrorF E) = mirrorF (delE ec'.swap E) := by
          rw [mirrorF_delE, Prod.swap_swap]
        have hL : procRow (mirrorF E) =
            insert ec' (insert er.swap (mirrorF (procRow (delE er (delE ec'.swap E))))) := by
          rw [procRow_of_nonempty hm, ← hec, hdelmm,
            ih (delE ec'.swap E) hcard1, procRow_of_nonempty hDc, f1, mirrorF_insert]
        have hDrStep : procRow (mirrorF (delE er E)) =
            insert ec' (mirrorF (procRow (delE er (delE ec'.swap E)))) := by
          rw [procRow_of_nonempty hDr, f2, hmDr, delE_comm, hdelmm,
            ← mirrorF_delE er (delE ec'.swap E), ih (delE er (delE ec'.swap E)) hcard3]
        have h6 : mirrorF (procRow (delE er E)) =
            insert ec' (mirrorF (procRow (delE er (delE ec'.swap E)))) := by
          rw [← ih (delE er E) hcard2, hDrStep]
        calc procRow (mirrorF E)
            = insert ec' (insert er.swap (mirrorF (procRow (delE er (delE ec'.swap E))))) := hL
          _ = insert er.swap (insert ec' (mirrorF (procRow (delE er (delE ec'.swap E))))) :=
              Finset.Insert.comm _ _ _
          _ = insert er.swap (mirrorF (procRow (delE er E))) := by rw [h6]
          _ = mirrorF (insert er (procRow (delE er E))) := (mirrorF_insert _ _).symm
          _ = mirrorF (procRow E) := by
              rw [her]
              exact congrArg mirrorF (procRow_of_nonempty h).symm
    · rw [procRow_of_empty h, procRow_of_empty (fun hx => h (nonempty_mirrorF.mp hx))]
      simp [mirrorF]

theorem procRow_mirror (E : Finset (ℕ × ℕ)) :
    procRow (mirrorF E) = mirrorF (procRow E) :=
  procRow_mirrorF_aux E.card E le_rfl

/-! ## The scan's edge set and the sequential greedy matching -/

/-- The bipartite edge set the `jaroWinkler` scan works on: `(i, j)` is an
edge when the characters agree and `j` lies in row `i`'s matching window. -/
def jwEdges (a b : List Char) (w : Int) : Finset (ℕ × ℕ) :=
  (Finset.range a.length ×ˢ Finset.range b.length).filter fun e =>
    a.getD e.1 ' ' = b.getD e.2 ' ' ∧ (e.1 : Int) - w ≤ (e.2 : Int) ∧
      (e.2 : Int) ≤ (e.1 : Int) + w

theorem mem_jwEdges {a b : List Char} {w : Int} {e : ℕ × ℕ} :
    e ∈ jwEdges a b w ↔ e.1 < a.length ∧ e.2 < b.length ∧
      a.getD e.1 ' ' = b.getD e.2 ' ' ∧ (e.1 : Int) - w ≤ (e.2 : Int) ∧
      (e.2 : Int) ≤ (e.1 : Int) + w := by
  simp only [jwEdges, Finset.mem_filter, Finset.mem_product, Finset.mem_range]
  tauto

theorem mirrorF_jwEdges (a b : List Char) (w : Int) :
    mirrorF (jwEdges a b w) = jwEdges b a w := by
  ext f
  rw [mem_mirrorF, mem_jwEdges, mem_jwEdges]
  simp only [Prod.fst_swap, Prod.snd_swap]
  constructor
  · rintro ⟨h1, h2, h3, h4, h5⟩
    exact ⟨h2, h1, h3.symm, by omega, by omega⟩
  · rintro ⟨h1, h2, h3, h4, h5⟩
    exact ⟨h2, h1, h3.symm, by omega, by omega⟩

theorem mem_jwWindow {w : Int} {i n j : ℕ} :
    j ∈ jwWindow w i n ↔ (i : Int) - w ≤ (j : Int) ∧ (j : Int) ≤ (i : Int) + w ∧ j < n := by
  simp only [jwWindow, List.mem_range'_1]
  omega

theorem find?_congr {α : Type} {p q : α → Bool} :
    ∀ {l : List α}, (∀ x ∈ l, p x = q x) → l.find? p = l.find? q := by
  intro l
  induction l with
  | nil => intro _; rfl
  | cons x xs ih =>
    intro h
    rw [List.find?_cons, List.find?_cons, h x (by simp)]
    cases q x with
    | true => rfl
    | false => exact ih fun y hy => h y (by simp [hy])

theorem find?_range'_min {p : ℕ → Bool} :
    ∀ {n s j : ℕ}, (List.range' s n).find? p = some j →
      ∀ k ∈ List.range' s n, p k = true → j ≤ k := by
  intro n
  induction n with
  | zero => intro s j h; simp [List.range'] at h
  | succ n ih =>
    intro s j h k hk hpk
    rw [List.range'_succ] at h hk
    rw [List.find?_cons] at h
    rcases List.mem_cons.mp hk with rfl | hk'
    · cases hps : p k with
      | true =>
        rw [hps] at h
        simp at h
        omega
      | false => rw [hps] at hpk; exact absurd hpk (by simp)
    · cases hps : p s with
      | true =>
        rw [hps] at h
        simp at h
        have := (List.mem_range'_1.mp hk').1
        omega
      | false =>
        rw [hps] at h
        exact ih h k hk' hpk

/-- The row-by-row greedy matching as the scan performs it, starting at row
`i` with the columns in `taken` already consumed, with `fuel` rows left to
process. -/
def greedyFromF (a b : List Char) (w : Int) : Nat → Finset ℕ → Nat → Finset (ℕ × ℕ)
  | 0, _, _ => ∅
  | n + 1, taken, i =>
    match (jwWindow w i b.length).find? fun j =>
        !(decide (j ∈ taken)) && (b.getD j ' ' == a.getD i ' ') with
    | some j => insert (i, j) (greedyFromF a b w n (insert j taken) (i + 1))
    | none => greedyFromF a b w n taken (i + 1)

theorem find?_jwWindow_min {p : ℕ → Bool} {w : Int} {i n j : ℕ}
    (hf : (jwWindow w i n).find? p = some j) :
    ∀ k ∈ jwWindow w i n, p k = true → j ≤ k :=
  fun k hk hpk => find?_range'_min hf k hk hpk

theorem greedyFromF_eq_procRow (a b : List Char) (w : Int) :
    ∀ (n : Nat) (taken : Finset ℕ) (i : Nat), n + i = a.length →
      greedyFromF a b w n taken i =
        procRow ((jwEdges a b w).filter fun e => i ≤ e.1 ∧ e.2 ∉ taken) := by
  intro n
  induction n with
  | zero =>
    intro taken i hn
    rw [greedyFromF, procRow_of_empty]
    rintro ⟨e, he⟩
    rw [Finset.mem_filter] at he
    have := mem_jwEdges.mp he.1
    omega
  | succ n ih =>
    intro taken i hn
    have hia : i < a.length := by omega
    cases hf : (jwWindow w i b.length).find? fun j =>
        !(decide (j ∈ taken)) && (b.getD j ' ' == a.getD i ' ') with
    | some j =>
      have hgf : greedyFromF a b w (n + 1) taken i =
          insert (i, j) (greedyFromF a b w n (insert j taken) (i + 1)) := by
        rw [greedyFromF, hf]
      have hjw := mem_jwWindow.mp (List.mem_of_find?_eq_some hf)
      have hpj := List.find?_some hf
      rw [Bool.and_eq_true, Bool.not_eq_true', decide_eq_false_iff_not, beq_iff_eq] at hpj
      have hmem : (i, j) ∈ (jwEdges a b w).filter fun e => i ≤ e.1 ∧ e.2 ∉ taken := by
        rw [Finset.mem_filter, mem_jwEdges]
        exact ⟨⟨hia, hjw.2.2, hpj.2.symm, hjw.1, hjw.2.1⟩, le_rfl, hpj.1⟩
      have hrm : IsRowMin ((jwEdges a b w).filter fun e => i ≤ e.1 ∧ e.2 ∉ taken) (i, j) := by
        refine ⟨hmem, fun f hfm => ?_⟩
        rw [Finset.mem_filter, mem_jwEdges] at hfm
        obtain ⟨⟨hf1, hf2, hf3, hf4, hf5⟩, hfi, hft⟩ := hfm
        rcases Nat.lt_or_ge i f.1 with hlt | hge
        · exact Or.inl hlt
        · have heq : f.1 = i := by omega
          rw [heq] at hf3 hf4 hf5
          refine Or.inr ⟨by omega, ?_⟩
          refine find?_jwWindow_min hf f.2 (mem_jwWindow.mpr ⟨hf4, hf5, hf2⟩) ?_
          rw [Bool.and_eq_true, Bool.not_eq_true', decide_eq_false_iff_not, beq_iff_eq]
          exact ⟨hft, hf3.symm⟩
      have hne : ((jwEdges a b w).filter fun e => i ≤ e.1 ∧ e.2 ∉ taken).Nonempty :=
        ⟨(i, j), hmem⟩
      have hdel : delE (i, j) ((jwEdges a b w).filter fun e => i ≤ e.1 ∧ e.2 ∉ taken) =
          (jwEdges a b w).filter fun e => i + 1 ≤ e.1 ∧ e.2 ∉ insert j taken := by
        ext e
        rw [mem_delE, Finset.mem_filter, Finset.mem_filter, Finset.mem_insert]
        constructor
        · rintro ⟨⟨he, hei, het⟩, hne1, hne2⟩
          exact ⟨he, by omega, fun hx => hx.elim hne2 het⟩
        · rintro ⟨he, hei, het⟩
          exact ⟨⟨he, by omega, fun hx => het (Or.inr hx)⟩, by omega,
            fun hx => het (Or.inl hx)⟩
      rw [hgf, procRow_of_nonempty hne, rowMinF_eq hne hrm, hdel,
        ih (insert j taken) (i + 1) (by omega)]
    | none =>
      have hgf : greedyFromF a b w (n + 1) taken i =
          greedyFromF a b w n taken (i + 1) := by
        rw [greedyFromF, hf]
      have hrow : ((jwEdges a b w).filter fun e => i ≤ e.1 ∧ e.2 ∉ taken) =
          (jwEdges a b w).filter fun e => i + 1 ≤ e.1 ∧ e.2 ∉ taken := by
        ext e
        rw [Finset.mem_filter, Finset.mem_filter]
        constructor
        · rintro ⟨he, hei, het⟩
          refine ⟨he, ?_, het⟩
          rcases Nat.lt_or_ge i e.1 with hlt | hge
          · omega
          · exfalso
            have heq : e.1 = i := by omega
            have hme := mem_jwEdges.mp he
            rw [heq] at hme
            have hwin : e.2 ∈ jwWindow w i b.length :=
              mem_jwWindow.mpr ⟨hme.2.2.2.1, hme.2.2.2.2, hme.2.1⟩
            have hnone := List.find?_eq_none.mp hf e.2 hwin
            rw [Bool.and_eq_true, Bool.not_eq_true', decide_eq_false_iff_not,
              beq_iff_eq] at hnone
            exact hnone ⟨het, hme.2.2.1.symm⟩
        · rintro ⟨he, hei, het⟩
          exact ⟨he, by omega, het⟩
      rw [hgf, hrow, ih taken (i + 1) (by omega)]


/-! ## From the source scan fold to the greedy matching -/

theorem getD_replicate_false : ∀ (n k : Nat), (List.replicate n false).getD k false = false := by
  intro n
  induction n with
  | zero => intro k; simp
  | succ n ih =>
    intro k
    cases k with
    | zero => simp [List.replicate]
    | succ k => simp only [List.replicate, List.getD_cons_succ]; exact ih k

theorem getD_set_self {l : List Bool} {i : Nat} (h : i < l.length) :
    (l.set i true).getD i false = true := by
  simp [List.getD_eq_getElem?_getD, List.getElem?_set_self, h]

theorem getD_set_ne {l : List Bool} {i k : Nat} (h : i ≠ k) :
    (l.set i true).getD k false = l.getD k false := by
  simp [List.getD_eq_getElem?_getD, List.getElem?_set_ne h]

theorem count_true_set {l : List Bool} {i : Nat} (h : i < l.length)
    (hfalse : l.getD i false = false) :
    (l.set i true).count true = l.count true + 1 := by
  have hgi : l[i] = false := by
    rw [List.getD_eq_getElem?_getD, List.getElem?_eq_getElem h] at hfalse
    simpa using hfalse
  rw [List.count_set true true l i h, hgi]
  simp

/-- The invariant relating a scan state to a set of matched pairs: the two
flag lists mark exactly the rows and columns of the pairs, and the match
counter (as well as either flag list's number of set flags) is the number
of pairs. -/
def ScanInv (a b : List Char) (Q : Finset (ℕ × ℕ))
    (st : List Bool × List Bool × Nat) : Prop :=
  st.1.length = a.length ∧ st.2.1.length = b.length ∧
  (∀ r, st.1.getD r false = true ↔ ∃ c, (r, c) ∈ Q) ∧
  (∀ c, st.2.1.getD c false = true ↔ ∃ r, (r, c) ∈ Q) ∧
  st.2.2 = Q.card ∧ st.1.count true = Q.card ∧ st.2.1.count true = Q.card

theorem scanInv_def {a b : List Char} {Q : Finset (ℕ × ℕ)} {m1 m2 : List Bool} {cnt : Nat} :
    ScanInv a b Q (m1, m2, cnt) ↔
      (m1.length = a.length ∧ m2.length = b.length ∧
      (∀ r, m1.getD r false = true ↔ ∃ c, (r, c) ∈ Q) ∧
      (∀ c, m2.getD c false = true ↔ ∃ r, (r, c) ∈ Q) ∧
      cnt = Q.card ∧ m1.count true = Q.card ∧ m2.count true = Q.card) := Iff.rfl

theorem jwScan_foldl_ok (a b : List Char) (w : Int) :
    ∀ (n i : Nat) (taken : Finset ℕ) (P : Finset (ℕ × ℕ)) (m1 m2 : List Bool) (cnt : Nat),
      n + i = a.length →
      ScanInv a b P (m1, m2, cnt) →
      (∀ e ∈ P, e.1 < i) →
      (∀ c, c ∈ taken ↔ ∃ r, (r, c) ∈ P) →
      ScanInv a b (P ∪ greedyFromF a b w n taken i)
        ((List.range' i n).foldl (jwScanStep a b w) (m1, m2, cnt)) := by
  intro n
  induction n with
  | zero =>
    intro i taken P m1 m2 cnt hn hinv hrows htaken
    rw [greedyFromF]
    simpa using hinv
  | succ n ih =>
    intro i taken P m1 m2 cnt hn hinv hrows htaken
    obtain ⟨hl1, hl2, hm1, hm2, hcnt, hct1, hct2⟩ := scanInv_def.mp hinv
    have hia : i < a.length := by omega
    have hpred : ∀ j ∈ jwWindow w i b.length,
        (fun j => !(m2.getD j false) && (b.getD j ' ' == a.getD i ' ')) j =
        (fun j => !(decide (j ∈ taken)) && (b.getD j ' ' == a.getD i ' ')) j := by
      intro j _
      have : m2.getD j false = decide (j ∈ taken) := by
        by_cases hj : j ∈ taken
        · rw [(hm2 j).mpr ((htaken j).mp hj)]
          simp [hj]
        · have : ¬∃ r, (r, j) ∈ P := fun hx => hj ((htaken j).mpr hx)
          have hgd : m2.getD j false = false := by
            cases hgd : m2.getD j false with
            | false => rfl
            | true => exact absurd ((hm2 j).mp hgd) this
          rw [hgd]
          simp [hj]
      simp only [this]
    have hfind : (jwWindow w i b.length).find?
        (fun j => !(m2.getD j false) && (b.getD j ' ' == a.getD i ' ')) =
        (jwWindow w i b.length).find?
        (fun j => !(decide (j ∈ taken)) && (b.getD j ' ' == a.getD i ' ')) :=
      find?_congr hpred
    rw [List.range'_succ, List.foldl_cons]
    cases hf : (jwWindow w i b.length).find?
        (fun j => !(decide (j ∈ taken)) && (b.getD j ' ' == a.getD i ' ')) with
    | some j =>
      have hstep : jwScanStep a b w (m1, m2, cnt) i =
          (m1.set i true, m2.set j true, cnt + 1) := by
        rw [jwScanStep]
        rw [show (m1, m2, cnt).2.1 = m2 from rfl, show (m1, m2, cnt).1 = m1 from rfl]
        rw [hfind, hf]
      have hgf : greedyFromF a b w (n + 1) taken i =
          insert (i, j) (greedyFromF a b w n (insert j taken) (i + 1)) := by
        rw [greedyFromF, hf]
      have hjw := mem_jwWindow.mp (List.mem_of_find?_eq_some hf)
      have hpj := List.find?_some hf
      rw [Bool.and_eq_true, Bool.not_eq_true', decide_eq_false_iff_not, beq_iff_eq] at hpj
      have hjb : j < b.length := hjw.2.2
      have hnotP : (i, j) ∉ P := fun hx => by have := hrows _ hx; omega
      have hm1i : m1.getD i false = false := by
        cases hgd : m1.getD i false with
        | false => rfl
        | true =>
          obtain ⟨c, hc⟩ := (hm1 i).mp hgd
          have := hrows _ hc
          omega
      have hm2j : m2.getD j false = false := by
        cases hgd : m2.getD j false with
        | false => rfl
        | true =>
          obtain ⟨r, hr⟩ := (hm2 j).mp hgd
          exact absurd ((htaken j).mpr ⟨r, hr⟩) hpj.1
      have hinv' : ScanInv a b (insert (i, j) P) (m1.set i true, m2.set j true, cnt + 1) := by
        rw [scanInv_def]
        refine ⟨by simp [hl1], by simp [hl2], ?_, ?_, ?_, ?_, ?_⟩
        · intro r
          by_cases hr : r = i
          · rw [hr, getD_set_self (show i < m1.length by omega)]
            simp only [true_iff]
            exact ⟨j, Finset.mem_insert_self _ _⟩
          · rw [getD_set_ne (fun hx => hr hx.symm), hm1 r]
            constructor
            · rintro ⟨c, hc⟩
              exact ⟨c, Finset.mem_insert_of_mem hc⟩
            · rintro ⟨c, hc⟩
              rcases Finset.mem_insert.mp hc with hceq | hcm
              · exact absurd (congrArg Prod.fst hceq) hr
              · exact ⟨c, hcm⟩
        · intro c
          by_cases hc : c = j
          · rw [hc, getD_set_self (show j < m2.length by omega)]
            simp only [true_iff]
            exact ⟨i, Finset.mem_insert_self _ _⟩
          · rw [getD_set_ne (fun hx => hc hx.symm), hm2 c]
            constructor
            · rintro ⟨r, hr⟩
              exact ⟨r, Finset.mem_insert_of_mem hr⟩
            · rintro ⟨r, hr⟩
              rcases Finset.mem_insert.mp hr with hreq | hrm
              · exact absurd (congrArg Prod.snd hreq) hc
              · exact ⟨r, hrm⟩
        · rw [Finset.card_insert_of_not_mem hnotP]
          omega
        · rw [Finset.card_insert_of_not_mem hnotP]
          rw [count_true_set (show i < m1.length by omega) hm1i, hct1]
        · rw [Finset.card_insert_of_not_mem hnotP]
          rw [count_true_set (show j < m2.length by omega) hm2j, hct2]
      have hrows' : ∀ e ∈ insert (i, j) P, e.1 < i + 1 := by
        intro e he
        rcases Finset.mem_insert.mp he with rfl | hm
        · omega
        · have := hrows _ hm
          omega
      have htaken' : ∀ c, c ∈ insert j taken ↔ ∃ r, (r, c) ∈ insert (i, j) P := by
        intro c
        rw [Finset.mem_insert]
        constructor
        · rintro (rfl | hc)
          · exact ⟨i, Finset.mem_insert_self _ _⟩
          · obtain ⟨r, hr⟩ := (htaken c).mp hc
            exact ⟨r, Finset.mem_insert_of_mem hr⟩
        · rintro ⟨r, hr⟩
          rcases Finset.mem_insert.mp hr with hreq | hrm
          · exact Or.inl (congrArg Prod.snd hreq)
          · exact Or.inr ((htaken c).mpr ⟨r, hrm⟩)
      have hmain := ih (i + 1) (insert j taken) (insert (i, j) P)
        (m1.set i true) (m2.set j true) (cnt + 1) (by omega) hinv' hrows' htaken'
      rw [hstep, hgf, Finset.union_insert, ← Finset.insert_union]
      exact hmain
    | none =>
      have hstep : jwScanStep a b w (m1, m2, cnt) i = (m1, m2, cnt) := by
        rw [jwScanStep]
        rw [show (m1, m2, cnt).2.1 = m2 from rfl, show (m1, m2, cnt).1 = m1 from rfl]
        rw [hfind, hf]
      have hgf : greedyFromF a b w (n + 1) taken i =
          greedyFromF a b w n taken (i + 1) := by
        rw [greedyFromF, hf]
      have hrows' : ∀ e ∈ P, e.1 < i + 1 := fun e he => by have := hrows e he; omega
      have hmain := ih (i + 1) taken P m1 m2 cnt (by omega)
        (scanInv_def.mpr ⟨hl1, hl2, hm1, hm2, hcnt, hct1, hct2⟩) hrows' htaken
      rw [hstep, hgf]
      exact hmain

theorem bool_eq_of_iff {x y : Bool} (h : x = true ↔ y = true) : x = y := by
  cases x <;> cases y <;> simp_all

theorem list_bool_ext : ∀ {l1 l2 : List Bool}, l1.length = l2.length →
    (∀ k, l1.getD k false = l2.getD k false) → l1 = l2 := by
  intro l1
  induction l1 with
  | nil =>
    intro l2 hlen _
    cases l2 with
    | nil => rfl
    | cons y ys => simp at hlen
  | cons x xs ih =>
    intro l2 hlen hget
    cases l2 with
    | nil => simp at hlen
    | cons y ys =>
      have h0 := hget 0
      simp only [List.getD_cons_zero] at h0
      have htail := @ih ys (by simpa using hlen) fun k => by
        have := hget (k + 1)
        simpa using this
      rw [h0, htail]

theorem jwScan_scanInv (a b : List Char) (w : Int) :
    ScanInv a b (procRow (jwEdges a b w)) (jwScan a b w) := by
  have base : ScanInv a b (∅ : Finset (ℕ × ℕ))
      (List.replicate a.length false, List.replicate b.length false, 0) := by
    rw [scanInv_def]
    refine ⟨by simp, by simp, ?_, ?_, by simp, ?_, ?_⟩
    · intro r; rw [getD_replicate_false]; simp
    · intro c; rw [getD_replicate_false]; simp
    · rw [List.count_eq_zero.mpr (by simp)]
      simp
    · rw [List.count_eq_zero.mpr (by simp)]
      simp
  have hmain := jwScan_foldl_ok a b w a.length 0 ∅ ∅ _ _ 0 (by omega) base
    (by simp) (by simp)
  have hg : greedyFromF a b w a.length ∅ 0 = procRow (jwEdges a b w) := by
    rw [greedyFromF_eq_procRow a b w a.length ∅ 0 (by omega)]
    congr 1
    apply Finset.filter_true_of_mem
    intro e _
    simp
  rw [Finset.empty_union, hg] at hmain
  rw [jwScan, List.range_eq_range']
  exact hmain

theorem jwScan_swap (a b : List Char) (w : Int) :
    (jwScan b a w).1 = (jwScan a b w).2.1 ∧
    (jwScan b a w).2.1 = (jwScan a b w).1 ∧
    (jwScan b a w).2.2 = (jwScan a b w).2.2 := by
  obtain ⟨hal1, hal2, ham1, ham2, hacnt, hact1, hact2⟩ := jwScan_scanInv a b w
  obtain ⟨hbl1, hbl2, hbm1, hbm2, hbcnt, hbct1, hbct2⟩ := jwScan_scanInv b a w
  have hQ : procRow (jwEdges b a w) = mirrorF (procRow (jwEdges a b w)) := by
    rw [← mirrorF_jwEdges a b w, procRow_mirror]
  have hcard : (procRow (jwEdges b a w)).card = (procRow (jwEdges a b w)).card := by
    rw [hQ, mirrorF]
    exact Finset.card_image_of_injective _ Prod.swap_injective
  refine ⟨?_, ?_, ?_⟩
  · apply list_bool_ext (by rw [hbl1, hal2])
    intro k
    apply bool_eq_of_iff
    rw [hbm1 k, ham2 k]
    constructor
    · rintro ⟨c, hc⟩
      rw [hQ, mem_mirrorF] at hc
      exact ⟨c, hc⟩
    · rintro ⟨c, hc⟩
      refine ⟨c, ?_⟩
      rw [hQ, mem_mirrorF]
      exact hc
  · apply list_bool_ext (by rw [hbl2, hal1])
    intro k
    apply bool_eq_of_iff
    rw [hbm2 k, ham1 k]
    constructor
    · rintro ⟨r, hr⟩
      rw [hQ, mem_mirrorF] at hr
      exact ⟨r, hr⟩
    · rintro ⟨r, hr⟩
      refine ⟨r, ?_⟩
      rw [hQ, mem_mirrorF]
      exact hr
  · rw [hbcnt, hacnt, hcard]

/-! ## The transposition loop against the matched-character sequences -/

/-- The characters of `s` at the positions whose flag is set, in order. -/
def selectFlags : List Char → List Bool → List Char
  | [], _ => []
  | _ :: _, [] => []
  | c :: cs, f :: fs => if f then c :: selectFlags cs fs else selectFlags cs fs

/-- The number of positions at which two character sequences differ,
over their common length. -/
def countZipNe : List Char → List Char → Nat
  | x :: xs, y :: ys => (if x ≠ y then 1 else 0) + countZipNe xs ys
  | _, _ => 0

theorem countZipNe_nil_right : ∀ u : List Char, countZipNe u [] = 0 := by
  intro u
  cases u <;> rfl

theorem countZipNe_symm : ∀ u v : List Char, countZipNe u v = countZipNe v u := by
  intro u
  induction u with
  | nil => intro v; rw [countZipNe_nil_right]; rfl
  | cons x xs ih =>
    intro v
    cases v with
    | nil => rw [countZipNe_nil_right]; rfl
    | cons y ys =>
      show (if x ≠ y then 1 else 0) + countZipNe xs ys =
        (if y ≠ x then 1 else 0) + countZipNe ys xs
      rw [ih ys]
      congr 1
      by_cases h : x = y
      · rw [if_neg (by simp [h]), if_neg (by simp [h.symm])]
      · rw [if_pos h, if_pos (fun h2 => h h2.symm)]

theorem nextTrueF_spec (m2 : List Bool) :
    ∀ (fuel k : Nat), (∃ j, k ≤ j ∧ m2.getD j false = true ∧ j < k + fuel) →
      k ≤ nextTrueF fuel m2 k ∧ m2.getD (nextTrueF fuel m2 k) false = true ∧
        ∀ j, k ≤ j → j < nextTrueF fuel m2 k → m2.getD j false = false := by
  intro fuel
  induction fuel with
  | zero =>
    intro k ⟨j, hj1, _, hj3⟩
    omega
  | succ fuel ih =>
    intro k hex
    rw [nextTrueF]
    cases hk : m2.getD k false with
    | true =>
      rw [if_pos rfl]
      exact ⟨le_rfl, hk, fun j h1 h2 => by omega⟩
    | false =>
      rw [if_neg (by simp)]
      obtain ⟨j, hj1, hj2, hj3⟩ := hex
      have hjk : j ≠ k := fun hx => by rw [hx] at hj2; rw [hj2] at hk; exact Bool.noConfusion hk
      have hex' : ∃ j, k + 1 ≤ j ∧ m2.getD j false = true ∧ j < k + 1 + fuel :=
        ⟨j, by omega, hj2, by omega⟩
      obtain ⟨ih1, ih2, ih3⟩ := ih (k + 1) hex'
      refine ⟨by omega, ih2, fun j2 h1 h2 => ?_⟩
      rcases Nat.eq_or_lt_of_le h1 with rfl | hlt
      · exact hk
      · exact ih3 j2 (by omega) h2

theorem exists_true_of_count {m2 : List Bool} {k : Nat}
    (h : 0 < (m2.drop k).count true) :
    ∃ j, k ≤ j ∧ j < m2.length ∧ m2.getD j false = true := by
  have hmem : true ∈ m2.drop k := List.count_pos_iff.mp h
  obtain ⟨n, hn, hget⟩ := List.mem_iff_getElem.mp hmem
  have hlen : k + n < m2.length := by
    have := hn
    rw [List.length_drop] at this
    omega
  refine ⟨k + n, by omega, hlen, ?_⟩
  rw [List.getD_eq_getElem?_getD, List.getElem?_eq_getElem hlen]
  simp only [Option.getD_some]
  rw [← List.getElem_drop m2]
  exact hget

theorem getD_true_lt_length {m : List Bool} {k : Nat} (h : m.getD k false = true) :
    k < m.length := by
  by_contra hk
  rw [List.getD_eq_default m false (by omega)] at h
  exact Bool.noConfusion h

theorem selectFlags_drop_step (b : List Char) (m2 : List Bool) (hl : m2.length = b.length) :
    ∀ (d k k' : Nat), k' - k = d → k ≤ k' → m2.getD k' false = true →
      (∀ j, k ≤ j → j < k' → m2.getD j false = false) →
      selectFlags (b.drop k) (m2.drop k) =
        b.getD k' ' ' :: selectFlags (b.drop (k' + 1)) (m2.drop (k' + 1)) ∧
      (m2.drop k).count true = (m2.drop (k' + 1)).count true + 1 := by
  intro d
  induction d with
  | zero =>
    intro k k' hd hkk htrue _
    have hkeq : k' = k := by omega
    subst hkeq
    have hkm : k' < m2.length := getD_true_lt_length htrue
    have hkb : k' < b.length := by omega
    have hm2d : m2.drop k' = true :: m2.drop (k' + 1) := by
      rw [List.drop_eq_getElem_cons hkm]
      congr 1
      rw [List.getD_eq_getElem?_getD, List.getElem?_eq_getElem hkm] at htrue
      simpa using htrue
    have hbd : b.drop k' = b[k'] :: b.drop (k' + 1) := List.drop_eq_getElem_cons hkb
    constructor
    · rw [hm2d, hbd, selectFlags, if_pos rfl]
      congr 1
      rw [List.getD_eq_getElem?_getD, List.getElem?_eq_getElem hkb]
      rfl
    · rw [hm2d]
      simp [List.count_cons_self]
  | succ d ih =>
    intro k k' hd hkk htrue hbetween
    have hklt : k < k' := by omega
    have hkfalse : m2.getD k false = false := hbetween k le_rfl hklt
    have hkm : k < m2.length := by
      have := getD_true_lt_length htrue
      omega
    have hkb : k < b.length := by omega
    have hm2d : m2.drop k = false :: m2.drop (k + 1) := by
      rw [List.drop_eq_getElem_cons hkm]
      congr 1
      rw [List.getD_eq_getElem?_getD, List.getElem?_eq_getElem hkm] at hkfalse
      simpa using hkfalse
    have hbd : b.drop k = b[k] :: b.drop (k + 1) := List.drop_eq_getElem_cons hkb
    obtain ⟨ih1, ih2⟩ := ih (k + 1) k' (by omega) (by omega) htrue
      (fun j h1 h2 => hbetween j (by omega) h2)
    constructor
    · rw [hm2d, hbd, selectFlags, if_neg (by simp), ih1]
    · rw [hm2d, List.count_cons]
      simp only [ih2]
      simp

theorem selectFlags_nil_of_lengths {a : List Char} {m1 : List Bool} {i : Nat}
    (h1 : m1.length = a.length) (h2 : a.length ≤ i) :
    selectFlags (a.drop i) (m1.drop i) = [] := by
  rw [List.drop_eq_nil_of_le (by omega), List.drop_eq_nil_of_le (by omega)]
  rfl

theorem jwTransStep_foldl (a b : List Char) (m1 m2 : List Bool)
    (hl1 : m1.length = a.length) (hl2 : m2.length = b.length) :
    ∀ (n i k t : Nat), n + i = a.length →
      (m1.drop i).count true ≤ (m2.drop k).count true →
      ((List.range' i n).foldl (jwTransStep a b m1 m2) (k, t)).2 =
        t + countZipNe (selectFlags (a.drop i) (m1.drop i))
          (selectFlags (b.drop k) (m2.drop k)) := by
  intro n
  induction n with
  | zero =>
    intro i k t hn _
    rw [selectFlags_nil_of_lengths hl1 (by omega)]
    have hz : countZipNe [] (selectFlags (b.drop k) (m2.drop k)) = 0 := rfl
    show t = t + countZipNe [] (selectFlags (b.drop k) (m2.drop k))
    rw [hz]
    omega
  | succ n ih =>
    intro i k t hn hcount
    have hia : i < a.length := by omega
    have him : i < m1.length := by omega
    have had : a.drop i = a[i] :: a.drop (i + 1) := List.drop_eq_getElem_cons hia
    rw [List.range'_succ, List.foldl_cons]
    cases hflag : m1.getD i false with
    | false =>
      have hstep : jwTransStep a b m1 m2 (k, t) i = (k, t) := by
        rw [jwTransStep]
        rw [show (k, t).1 = k from rfl]
        rw [hflag]
        rfl
      have hm1d : m1.drop i = false :: m1.drop (i + 1) := by
        rw [List.drop_eq_getElem_cons him]
        congr 1
        rw [List.getD_eq_getElem?_getD, List.getElem?_eq_getElem him] at hflag
        simpa using hflag
      have hsel : selectFlags (a.drop i) (m1.drop i) =
          selectFlags (a.drop (i + 1)) (m1.drop (i + 1)) := by
        rw [had, hm1d, selectFlags, if_neg (by simp)]
      have hcount' : (m1.drop (i + 1)).count true ≤ (m2.drop k).count true := by
        rw [hm1d, List.count_cons] at hcount
        simp at hcount
        omega
      rw [hstep, ih (i + 1) k t (by omega) hcount', hsel]
    | true =>
      have hm1d : m1.drop i = true :: m1.drop (i + 1) := by
        rw [List.drop_eq_getElem_cons him]
        congr 1
        rw [List.getD_eq_getElem?_getD, List.getElem?_eq_getElem him] at hflag
        simpa using hflag
      have hc1 : 0 < (m2.drop k).count true := by
        rw [hm1d, List.count_cons_self] at hcount
        omega
      obtain ⟨j0, hj0k, hj0len, hj0t⟩ := exists_true_of_count hc1
      have hspec := nextTrueF_spec m2 b.length k ⟨j0, hj0k, hj0t, by omega⟩
      set k' := nextTrueF b.length m2 k with hk'def
      obtain ⟨hkk', htrue', hbetween⟩ := hspec
      have hstep : jwTransStep a b m1 m2 (k, t) i =
          (k' + 1, if a.getD i ' ' ≠ b.getD k' ' ' then t + 1 else t) := by
        rw [jwTransStep]
        rw [show (k, t).1 = k from rfl]
        rw [hflag]
        rfl
      obtain ⟨hseldrop, hcntdrop⟩ := selectFlags_drop_step b m2 hl2 (k' - k) k k' rfl
        hkk' htrue' hbetween
      have hsel1 : selectFlags (a.drop i) (m1.drop i) =
          a[i] :: selectFlags (a.drop (i + 1)) (m1.drop (i + 1)) := by
        rw [had, hm1d, selectFlags, if_pos rfl]
      have hcount' : (m1.drop (i + 1)).count true ≤ (m2.drop (k' + 1)).count true := by
        rw [hm1d, List.count_cons_self] at hcount
        omega
      set t' := if a.getD i ' ' ≠ b.getD k' ' ' then t + 1 else t with ht'def
      rw [hstep, ih (i + 1) (k' + 1) t' (by omega) hcount', hsel1, hseldrop]
      show t' + _ = t + countZipNe (a[i] :: _) (b.getD k' ' ' :: _)
      rw [countZipNe]
      have hgetd : a[i] = a.getD i ' ' := by
        rw [List.getD_eq_getElem?_getD, List.getElem?_eq_getElem hia]
        rfl
      rw [hgetd, ht'def]
      by_cases hne : a.getD i ' ' = b.getD k' ' '
      · rw [if_neg (show ¬a.getD i ' ' ≠ b.getD k' ' ' from fun hx => hx hne),
          if_neg (show ¬a.getD i ' ' ≠ b.getD k' ' ' from fun hx => hx hne)]
        omega
      · rw [if_pos hne, if_pos hne]
        omega

theorem jwTranspositions_eq_countZipNe (a b : List Char) (m1 m2 : List Bool)
    (hl1 : m1.length = a.length) (hl2 : m2.length = b.length)
    (hcount : m1.count true ≤ m2.count true) :
    jwTranspositions a b m1 m2 = countZipNe (selectFlags a m1) (selectFlags b m2) := by
  rw [jwTranspositions, List.range_eq_range']
  have := jwTransStep_foldl a b m1 m2 hl1 hl2 a.length 0 0 0 (by omega)
    (by simpa using hcount)
  simpa using this

theorem commonPrefixLenUpTo_symm : ∀ (cap : Nat) (a b : List Char),
    commonPrefixLenUpTo cap a b = commonPrefixLenUpTo cap b a := by
  intro cap
  induction cap with
  | zero => intro a b; rfl
  | succ cap ih =>
    intro a b
    cases a with
    | nil => cases b <;> rfl
    | cons x xs =>
      cases b with
      | nil => rfl
      | cons y ys =>
        show (if x = y then 1 + commonPrefixLenUpTo cap xs ys else 0) =
          (if y = x then 1 + commonPrefixLenUpTo cap ys xs else 0)
        by_cases h : x = y
        · rw [if_pos h, if_pos h.symm, ih]
        · rw [if_neg h, if_neg (fun h2 => h h2.symm)]

theorem jwRadius_symm (a b : List Char) : jwRadius a b = jwRadius b a := by
  rw [jwRadius, jwRadius, max_comm a.length b.length]

theorem jwTranspositions_swap (a b : List Char) (w : Int) :
    jwTranspositions b a (jwScan b a w).1 (jwScan b a w).2.1 =
      jwTranspositions a b (jwScan a b w).1 (jwScan a b w).2.1 := by
  obtain ⟨hs1, hs2, _⟩ := jwScan_swap a b w
  obtain ⟨hal1, hal2, _, _, _, hact1, hact2⟩ := jwScan_scanInv a b w
  rw [hs1, hs2]
  rw [jwTranspositions_eq_countZipNe b a _ _ hal2 hal1 (le_of_eq (by rw [hact1, hact2]))]
  rw [jwTranspositions_eq_countZipNe a b _ _ hal1 hal2 (le_of_eq (by rw [hact1, hact2]))]
  exact countZipNe_symm _ _

theorem jaroWinkler_symm (a b : List Char) : jaroWinkler a b = jaroWinkler b a := by
  simp only [jaroWinkler]
  by_cases hab : a = b
  · rw [if_pos hab, if_pos hab.symm]
  · rw [if_neg hab, if_neg (show ¬b = a from fun h => hab h.symm)]
    by_cases hemp : a.length = 0 ∨ b.length = 0
    · rw [if_pos hemp, if_pos (show b.length = 0 ∨ a.length = 0 from or_comm.mp hemp)]
    · rw [if_neg hemp,
        if_neg (show ¬(b.length = 0 ∨ a.length = 0) from fun h => hemp (or_comm.mp h))]
      have hw : jwRadius b a = jwRadius a b := (jwRadius_symm a b).symm
      rw [hw]
      have hm : (jwScan b a (jwRadius a b)).2.2 = (jwScan a b (jwRadius a b)).2.2 :=
        (jwScan_swap a b (jwRadius a b)).2.2
      have ht := jwTranspositions_swap a b (jwRadius a b)
      have hp : commonPrefixLenUpTo (min 4 (min b.length a.length)) b a =
          commonPrefixLenUpTo (min 4 (min a.length b.length)) a b := by
        rw [min_comm b.length a.length, commonPrefixLenUpTo_symm]
      rw [hm, ht, hp]
      exact if_congr Iff.rfl rfl (by ring)

/-- C7: each of the five distance-style metrics is symmetric in its two
operands. -/
theorem metrics_symmetric : ∀ a b : List Char,
    levenshtein a b = levenshtein b a ∧
    hammingDistance a b = hammingDistance b a ∧
    damerauLevenshtein a b = damerauLevenshtein b a ∧
    longestCommonSubsequence a b = longestCommonSubsequence b a ∧
    jaroWinkler a b = jaroWinkler b a := by
  intro a b
  refine ⟨levenshtein_symm a b, hammingDistance_symm a b, ?_, ?_, jaroWinkler_symm a b⟩
  · rw [damerauLevenshtein_eq, damerauLevenshtein_eq, dlSpec, dlSpec,
      dlR_symm a.reverse b.reverse]
  · rw [longestCommonSubsequence_eq, longestCommonSubsequence_eq,
      lcsR_symm a.reverse b.reverse, max_comm a.length b.length]

end GitDistance
